import Mathlib

/-!
Truncated-digest attack simulation (`hashes/SHA-1.go`).

A shallow embedding of the Go program: the digest wrapper, the truncation
function, the message mutator, the preimage search, the birthday search and
the statistics, followed by the properties proved about them.

Modelling conventions.

* A Go `string` is a sequence of bytes: `GoString := List (Fin 256)`.
* A Go `int` that never leaves a small range is an `Int` (bit-widths, results)
  or a `Nat` (the attempt counter, which starts at 0 and only grows to 5000001).
* A run-time panic is `none` in helper functions and `Outcome.panicked` in the
  two searches.
* The process-wide random generator is an explicit infinite sequence of raw
  values; `rand.Intn n` consumes one value and reduces it into `[0, n)`.
* The `for { ... }` loops take a fuel argument; the searches are run with enough
  fuel, and `Outcome.outOfFuel` is shown never to be their result.
* A `float64` is a rational or one of the IEEE 754 special values, and the
  rounding of each operation is a parameter (see the section on statistics).
-/

namespace Hashes

/-- A Go byte. -/
abbrev Byte := Fin 256

/-- A Go string: a sequence of bytes. -/
abbrev GoString := List Byte

/-! ### The digest function

`calculateHash` wraps the library functions `crypto/sha1` and
`hex.EncodeToString`; they are embedded here after FIPS 180-4 so that the
searches can be evaluated on concrete messages. -/

/-- Rotate a 32-bit word left by `n` bits. -/
def rotl32 (x n : Nat) : Nat :=
  ((x <<< n) ||| (x >>> (32 - n))) % 2 ^ 32

/-- SHA-1 padding: a `0x80` byte, zeros up to 56 modulo 64, and the bit length
as eight big-endian bytes. -/
def sha1Pad (data : List Nat) : List Nat :=
  let bitLen := 8 * data.length
  data ++ [0x80] ++ List.replicate ((119 - data.length % 64) % 64) 0 ++
    (List.range 8).map (fun i => (bitLen >>> (8 * (7 - i))) % 256)

/-- A big-endian word from its bytes. -/
def beWord (bs : List Nat) : Nat :=
  bs.foldl (fun acc b => acc * 256 + b) 0

/-- The `n` leading big-endian words of `bytes`, pushed onto `acc` (so the
last word read comes first). -/
def blockWordsRev : Nat → List Nat → List Nat → List Nat
  | 0, _, acc => acc
  | n + 1, bytes, acc => blockWordsRev n (bytes.drop 4) (beWord (bytes.take 4) :: acc)

/-- Extend the message schedule by `n` words; the schedule is kept newest word
first, so `w[t-3]`, `w[t-8]`, `w[t-14]`, `w[t-16]` sit at 2, 7, 13 and 15. -/
def scheduleRev : Nat → List Nat → List Nat
  | 0, ws => ws
  | n + 1, ws =>
    scheduleRev n
      (rotl32 (ws.getD 2 0 ^^^ ws.getD 7 0 ^^^ ws.getD 13 0 ^^^ ws.getD 15 0) 1 :: ws)

/-- The five working variables of SHA-1. -/
structure Sha1State where
  a : Nat
  b : Nat
  c : Nat
  d : Nat
  e : Nat
deriving DecidableEq, Repr

/-- Round `t` of the compression function with schedule word `w`. -/
def sha1Round (s : Sha1State) (t w : Nat) : Sha1State :=
  let f :=
    if t < 20 then (s.b &&& s.c) ||| ((s.b ^^^ 0xFFFFFFFF) &&& s.d)
    else if t < 40 then s.b ^^^ s.c ^^^ s.d
    else if t < 60 then ((s.b ||| s.c) &&& s.d) ||| (s.b &&& s.c)
    else s.b ^^^ s.c ^^^ s.d
  let k :=
    if t < 20 then 0x5A827999
    else if t < 40 then 0x6ED9EBA1
    else if t < 60 then 0x8F1BBCDC
    else 0xCA62C1D6
  ⟨(rotl32 s.a 5 + f + s.e + w + k) % 2 ^ 32, s.a, rotl32 s.b 30, s.c, s.d⟩

/-- The rounds of the compression function over the schedule words, starting
at round `t`. -/
def sha1Rounds : List Nat → Nat → Sha1State → Sha1State
  | [], _, s => s
  | w :: ws, t, s => sha1Rounds ws (t + 1) (sha1Round s t w)

/-- The compression function on one 64-byte block. -/
def sha1Block (h : Sha1State) (block : List Nat) : Sha1State :=
  let w := (scheduleRev 64 (blockWordsRev 16 block [])).reverse
  let s := sha1Rounds w 0 h
  ⟨(h.a + s.a) % 2 ^ 32, (h.b + s.b) % 2 ^ 32, (h.c + s.c) % 2 ^ 32,
   (h.d + s.d) % 2 ^ 32, (h.e + s.e) % 2 ^ 32⟩

/-- Compress `n` consecutive blocks. -/
def sha1Blocks : Nat → Sha1State → List Nat → Sha1State
  | 0, h, _ => h
  | n + 1, h, bytes => sha1Blocks n (sha1Block h (bytes.take 64)) (bytes.drop 64)

/-- The four bytes of a 32-bit word, most significant first. -/
def wordBytes (w : Nat) : List Nat :=
  [(w >>> 24) % 256, (w >>> 16) % 256, (w >>> 8) % 256, w % 256]

/-- Library `sha1`: the 20-byte digest of `data`. -/
def sha1Sum (data : List Nat) : List Nat :=
  let p := sha1Pad data
  let h := sha1Blocks (p.length / 64)
    ⟨0x67452301, 0xEFCDAB89, 0x98BADCFE, 0x10325476, 0xC3D2E1F0⟩ p
  wordBytes h.a ++ wordBytes h.b ++ wordBytes h.c ++ wordBytes h.d ++ wordBytes h.e

/-- One lowercase hexadecimal digit as an ASCII byte. -/
def hexDigit (n : Nat) : Byte :=
  Fin.ofNat (if n < 10 then 48 + n else 87 + n)

/-- Library `hex.EncodeToString`. -/
def hexEncode (bs : List Nat) : GoString :=
  bs.flatMap (fun b => [hexDigit (b / 16), hexDigit (b % 16)])

/-- Source `calculateHash`: the lowercase hex SHA-1 digest of `data`. -/
def calculateHash (data : GoString) : GoString :=
  hexEncode (sha1Sum (data.map (fun b => b.val)))

/-! ### Truncation and the mutator -/

/-- The Go slice expression `s[lo:]`; `none` is the run-time panic raised when
`lo` is outside `0 ..= len(s)`. -/
def sliceFrom {α : Type} (s : List α) (lo : Int) : Option (List α) :=
  if 0 ≤ lo ∧ lo ≤ (s.length : Int) then some (s.drop lo.toNat) else none

/-- Source `truncateHash`: the trailing `bits / 4` characters of `fullHash`
(Go integer division truncates toward zero). -/
def truncateHash (fullHash : GoString) (bits : Int) : Option GoString :=
  if bits = 0 then some []
  else
    let nibbles := Int.tdiv bits 4
    if (fullHash.length : Int) < nibbles then some fullHash
    else sliceFrom fullHash ((fullHash.length : Int) - nibbles)

/-- The process-wide random generator: the sequence of raw values it will
produce from now on. -/
abbrev RandSource := Nat → Nat

/-- Library `rand.Intn n`: panics when `n <= 0`, otherwise returns a value in
`[0, n)` and advances the generator. -/
def Intn (n : Nat) (src : RandSource) : Option (Nat × RandSource) :=
  if n = 0 then none else some (src 0 % n, fun k => src (k + 1))

/-- The replacement byte of `generateRandomMessage`:
`byte((int(o) + r + 1) % 256)`. -/
def mutateByte (o : Byte) (r : Nat) : Byte :=
  Fin.ofNat ((o.val + r + 1) % 256)

/-- Source `generateRandomMessage`: draw an index, draw a shift, replace the
byte at that index. -/
def generateRandomMessage (msg : GoString) (src : RandSource) :
    Option (GoString × RandSource) :=
  match Intn msg.length src with
  | none => none
  | some (idx, src1) =>
    match msg[idx]? with
    | none => none
    | some o =>
      match Intn 255 src1 with
      | none => none
      | some (r, src2) => some (msg.set idx (mutateByte o r), src2)

/-- Library `strconv.Itoa` on a non-negative integer: its decimal digits as
ASCII bytes. -/
def Itoa (n : Nat) : GoString :=
  (Nat.toDigits 10 n).map (fun c => (Fin.ofNat c.toNat : Byte))

/-- How a call of one of the searches ends. -/
inductive Outcome where
  | returned (n : Int)
  | panicked
  | outOfFuel
deriving DecidableEq, Repr

/-- The mutator step shared by both search loops: the candidate message for
attempt `count`, the new current message and the new generator state. -/
def nextCandidate (initialMsg : GoString) (isSequential : Bool) (count : Nat)
    (currentMsg : GoString) (src : RandSource) :
    Option (GoString × GoString × RandSource) :=
  if isSequential then
    some (initialMsg ++ Itoa count, currentMsg, src)
  else
    match generateRandomMessage currentMsg src with
    | none => none
    | some (candidateMsg, src1) => some (candidateMsg, candidateMsg, src1)

/-- The loop of `PreimageAttack`; `count` is the counter before `count++`. -/
def preimageLoop (H : GoString → GoString) (initialMsg : GoString)
    (isSequential : Bool) (bits : Int) (targetHash : GoString) :
    Nat → Nat → GoString → RandSource → Outcome
  | 0, _, _, _ => Outcome.outOfFuel
  | fuel + 1, count0, currentMsg0, src0 =>
    let count := count0 + 1
    match nextCandidate initialMsg isSequential count currentMsg0 src0 with
    | none => Outcome.panicked
    | some (candidateMsg, currentMsg, src) =>
      match truncateHash (H candidateMsg) bits with
      | none => Outcome.panicked
      | some candidateHash =>
        if candidateHash = targetHash then Outcome.returned count
        else if count > 5000000 then Outcome.returned (-1)
        else preimageLoop H initialMsg isSequential bits targetHash fuel count currentMsg src

/-- Fuel that lets either search loop run to its own exit. -/
def searchFuel : Nat := 5000001

/-- Source `PreimageAttack`, with the digest function `H` (`calculateHash`) and
the random generator made explicit. -/
def PreimageAttack (H : GoString → GoString) (src : RandSource)
    (initialMsg : GoString) (isSequential : Bool) (bits : Int) : Outcome :=
  match truncateHash (H initialMsg) bits with
  | none => Outcome.panicked
  | some targetHash =>
    preimageLoop H initialMsg isSequential bits targetHash searchFuel 0 initialMsg src

/-- Source `HashEntry`. -/
structure HashEntry where
  message : GoString
  fullHash : GoString
deriving DecidableEq, Repr

/-- The Go map `seenHashes`: at most one entry per key. -/
abbrev SeenMap := GoString → Option HashEntry

/-- The nested test of `BirthdayAttack`: an entry is found under `truncHash`
and its message differs from the candidate. -/
def collides (seenHashes : SeenMap) (truncHash candidateMsg : GoString) : Bool :=
  match seenHashes truncHash with
  | some entry => decide (entry.message ≠ candidateMsg)
  | none => false

/-- The loop of `BirthdayAttack`; `count` is the counter before `count++`. -/
def birthdayLoop (H : GoString → GoString) (initialMsg : GoString)
    (isSequential : Bool) (bits : Int) :
    Nat → Nat → GoString → RandSource → SeenMap → Outcome
  | 0, _, _, _, _ => Outcome.outOfFuel
  | fuel + 1, count0, currentMsg0, src0, seenHashes =>
    let count := count0 + 1
    match nextCandidate initialMsg isSequential count currentMsg0 src0 with
    | none => Outcome.panicked
    | some (candidateMsg, currentMsg, src) =>
      let fullHash := H candidateMsg
      match truncateHash fullHash bits with
      | none => Outcome.panicked
      | some truncHash =>
        if collides seenHashes truncHash candidateMsg then
          Outcome.returned count
        else
          let seenHashes1 : SeenMap :=
            Function.update seenHashes truncHash (some ⟨candidateMsg, fullHash⟩)
          if count > 5000000 then Outcome.returned (-1)
          else birthdayLoop H initialMsg isSequential bits fuel count currentMsg src seenHashes1

/-- Source `BirthdayAttack`, with the digest function and the random generator
made explicit. -/
def BirthdayAttack (H : GoString → GoString) (src : RandSource)
    (initialMsg : GoString) (isSequential : Bool) (bits : Int) : Outcome :=
  birthdayLoop H initialMsg isSequential bits searchFuel 0 initialMsg src (fun _ => none)

/-! ### The sequence of candidates

Both loops generate the same candidates; only their exit tests differ. -/

/-- The mutator state after `k` iterations that did not leave the loop: the
`k`-th candidate, the current message and the generator (`none` if the mutator
panicked on the way). Entry 0 is the state before the first iteration. -/
def walk (initialMsg : GoString) (isSequential : Bool) (src : RandSource) :
    Nat → Option (GoString × GoString × RandSource)
  | 0 => some (initialMsg, initialMsg, src)
  | k + 1 =>
    match walk initialMsg isSequential src k with
    | none => none
    | some (_, currentMsg, src1) =>
      nextCandidate initialMsg isSequential (k + 1) currentMsg src1

/-- The candidate message of attempt `k` (for `k ≥ 1`). -/
def candidate (initialMsg : GoString) (isSequential : Bool) (src : RandSource)
    (k : Nat) : Option GoString :=
  (walk initialMsg isSequential src k).map (fun p => p.1)

/-- A miss at attempt `j`: the candidate exists and its truncated digest is
defined and differs from the target. -/
def missAt (H : GoString → GoString) (initialMsg : GoString) (isSequential : Bool)
    (src : RandSource) (bits : Int) (target : GoString) (j : Nat) : Prop :=
  ∃ c t, candidate initialMsg isSequential src j = some c ∧
    truncateHash (H c) bits = some t ∧ t ≠ target

/-- A hit at attempt `j`: the candidate exists and its truncated digest is the
target. -/
def hitAt (H : GoString → GoString) (initialMsg : GoString) (isSequential : Bool)
    (src : RandSource) (bits : Int) (target : GoString) (j : Nat) : Prop :=
  ∃ c, candidate initialMsg isSequential src j = some c ∧
    truncateHash (H c) bits = some target

/-- Attempt `j` is defined: its candidate exists and the truncated digest of the
candidate is defined. -/
def definedAt (H : GoString → GoString) (initialMsg : GoString) (isSequential : Bool)
    (src : RandSource) (bits : Int) (j : Nat) : Prop :=
  ∃ c t, candidate initialMsg isSequential src j = some c ∧
    truncateHash (H c) bits = some t

/-- A collision at attempt `n`: some earlier attempt `j` produced a different
message with the same truncated digest. -/
def collisionAt (H : GoString → GoString) (initialMsg : GoString) (isSequential : Bool)
    (src : RandSource) (bits : Int) (n : Nat) : Prop :=
  ∃ j cn cj t, 1 ≤ j ∧ j < n ∧
    candidate initialMsg isSequential src n = some cn ∧
    candidate initialMsg isSequential src j = some cj ∧ cn ≠ cj ∧
    truncateHash (H cn) bits = some t ∧ truncateHash (H cj) bits = some t

/-- The invariant of the map `seenHashes` after `k` attempts: every entry is an
earlier candidate stored under its own truncated digest together with its full
digest, and every earlier candidate has an entry under its truncated digest. -/
def SeenInv (H : GoString → GoString) (initialMsg : GoString) (isSequential : Bool)
    (src : RandSource) (bits : Int) (k : Nat) (seen : SeenMap) : Prop :=
  (∀ t e, seen t = some e →
    ∃ j, 1 ≤ j ∧ j ≤ k ∧ candidate initialMsg isSequential src j = some e.message ∧
      truncateHash (H e.message) bits = some t ∧ e.fullHash = H e.message) ∧
  (∀ j c t, 1 ≤ j → j ≤ k → candidate initialMsg isSequential src j = some c →
    truncateHash (H c) bits = some t → ∃ e, seen t = some e)

/-- The state of the birthday loop at the start of iteration `k + 1`: the
current message, the generator and the map `seenHashes`, provided that none of
the first `k` iterations left the loop (`none` otherwise). -/
def birthdayState (H : GoString → GoString) (initialMsg : GoString)
    (isSequential : Bool) (bits : Int) (src : RandSource) :
    Nat → Option (GoString × RandSource × SeenMap)
  | 0 => some (initialMsg, src, fun _ => none)
  | k + 1 =>
    match birthdayState H initialMsg isSequential bits src k with
    | none => none
    | some (currentMsg0, src0, seenHashes) =>
      match nextCandidate initialMsg isSequential (k + 1) currentMsg0 src0 with
      | none => none
      | some (candidateMsg, currentMsg, src1) =>
        match truncateHash (H candidateMsg) bits with
        | none => none
        | some truncHash =>
          if collides seenHashes truncHash candidateMsg then none
          else if k + 1 > 5000000 then none
          else some (currentMsg, src1,
            Function.update seenHashes truncHash (some ⟨candidateMsg, H candidateMsg⟩))

/-! ### A sequence of draws that cycles

On the one-byte message "a" these draws produce the candidates "b", "c", "b",
"c", ... for the first 5000000 attempts and "a" on attempt 5000001: every index
draw is 0, the shift draws are 0 ("a" to "b", "b" to "c"), 254 ("c" to "b") and
finally 253 ("c" to "a"). -/

/-- The raw values of the cycling sequence: value `2k-2` is the index draw and
value `2k-1` the shift draw of attempt `k`. -/
def cycleDraws : RandSource :=
  fun i => if i = 1 then 0 else if i = 10000001 then 253 else if i % 4 = 1 then 254 else 0

/-- The byte of the current message after `k` attempts of the cycle. -/
def cycleByte (k : Nat) : Byte :=
  if k = 0 then 97 else if k % 2 = 1 then 98 else 99

/-- Draws that undo themselves: the index `idx` twice, with the shift draws 0
and then 254, so that the chosen byte moves by 1 and then by 255. -/
def returnDraws (idx : Nat) : RandSource :=
  fun i => if i = 0 then idx else if i = 1 then 0 else if i = 2 then idx else 254

/-! ### Statistics

`float64` values are the rationals together with the IEEE 754 special values.
The rounding of each operation is a parameter constrained by two laws that
round-to-nearest satisfies: a representable value rounds to itself, and
integers of magnitude up to `2 ^ 53` are representable. `float64Rounding` is
the rounding of `float64` itself (53-bit significand, nearest, ties to even).
Overflow to infinity and subnormal results are not modelled: starting from
`int` inputs the magnitudes stay far inside the `float64` range, and the only
special values the program can produce come from its last division. Zero carries no sign; the only zero divisor of the
program is `float64(0)`, which is positive. -/

/-- Rounding to `float64`. -/
structure Rounding where
  rnd : ℚ → ℚ
  rnd_idem : ∀ q, rnd (rnd q) = rnd q
  rnd_int : ∀ n : Int, n.natAbs ≤ 2 ^ 53 → rnd (n : ℚ) = (n : ℚ)

/-- Rounding of a non-negative value to the nearest integer, ties to even. -/
def roundHalfEven (x : ℚ) : Int :=
  let f := ⌊x⌋
  if x - f < 1 / 2 then f
  else if 1 / 2 < x - f then f + 1
  else if f % 2 = 0 then f else f + 1

/-- Rounding to a 53-bit significand, nearest with ties to even: the value is
scaled by a power of two so that its magnitude lies in `[2 ^ 52, 2 ^ 53)`,
rounded to an integer and scaled back. This is the rounding of `float64`
wherever the result is neither subnormal nor out of range. -/
def round53 (q : ℚ) : ℚ :=
  if q = 0 then 0
  else
    let s : ℚ := 2 ^ (Int.log 2 |q| - 52)
    (if 0 < q then 1 else -1) * (roundHalfEven (|q| / s) : ℚ) * s

/-- The rounding of `float64`, with the proofs of the two laws. -/
def float64Rounding : Rounding :=
  have hRoundInt : ∀ z : Int, roundHalfEven (z : ℚ) = z := by
    intro z
    simp [roundHalfEven]
  have hLogEq : ∀ (r : ℚ) (k : Int), 0 < r → (2 : ℚ) ^ k ≤ r → r < (2 : ℚ) ^ (k + 1) →
      Int.log 2 r = k := by
    intro r k hr h1 h2
    have a := (Int.zpow_le_iff_le_log (show 1 < 2 by norm_num) hr).mp (by exact_mod_cast h1)
    have b := (Int.lt_zpow_iff_log_lt (show 1 < 2 by norm_num) hr).mp (by exact_mod_cast h2)
    omega
  have hSigned : ∀ q : ℚ, q ≠ 0 → (if 0 < q then (1 : ℚ) else -1) * |q| = q := by
    intro q hq
    by_cases h : 0 < q
    · rw [if_pos h, abs_of_pos h, one_mul]
    · have hneg : q < 0 := lt_of_le_of_ne (not_lt.mp h) hq
      rw [if_neg h, abs_of_neg hneg]
      ring
  have hOfInt : ∀ (q : ℚ) (z : Int),
      |q| / (2 : ℚ) ^ (Int.log 2 |q| - 52) = (z : ℚ) → round53 q = q := by
    intro q z hz
    by_cases hq : q = 0
    · simp [round53, hq]
    · have hs : (2 : ℚ) ^ (Int.log 2 |q| - 52) ≠ 0 := zpow_ne_zero _ (by norm_num)
      unfold round53
      rw [if_neg hq]
      simp only [hz, hRoundInt]
      rw [← hz, mul_assoc, div_mul_cancel₀ _ hs]
      exact hSigned q hq
  have hLogBounds : ∀ r : ℚ, 0 < r →
      (2 : ℚ) ^ Int.log 2 r ≤ r ∧ r < (2 : ℚ) ^ (Int.log 2 r + 1) := by
    intro r hr
    have a := Int.zpow_log_le_self (show 1 < 2 by norm_num) hr
    have b := Int.lt_zpow_succ_log_self (show 1 < 2 by norm_num) r
    exact ⟨by exact_mod_cast a, by exact_mod_cast b⟩
  have hScale52 : ∀ e : Int, (2 : ℚ) ^ (52 : Nat) * (2 : ℚ) ^ (e - 52) = (2 : ℚ) ^ e := by
    intro e
    rw [← zpow_natCast, ← zpow_add₀ (by norm_num)]
    congr 1
    omega
  have hScale53 : ∀ e : Int,
      (2 : ℚ) ^ (53 : Nat) * (2 : ℚ) ^ (e - 52) = (2 : ℚ) ^ (e + 1) := by
    intro e
    rw [← zpow_natCast, ← zpow_add₀ (by norm_num)]
    congr 1
    omega
  have hScaled : ∀ r : ℚ, 0 < r →
      (2 : ℚ) ^ (52 : Nat) ≤ r / (2 : ℚ) ^ (Int.log 2 r - 52) ∧
        r / (2 : ℚ) ^ (Int.log 2 r - 52) < (2 : ℚ) ^ (53 : Nat) := by
    intro r hr
    obtain ⟨h1, h2⟩ := hLogBounds r hr
    have hs : (0 : ℚ) < (2 : ℚ) ^ (Int.log 2 r - 52) := zpow_pos (by norm_num) _
    constructor
    · rw [le_div_iff₀ hs, hScale52]
      exact h1
    · rw [div_lt_iff₀ hs, hScale53]
      exact h2
  have hRoundBounds : ∀ x : ℚ, (2 : ℚ) ^ (52 : Nat) ≤ x → x < (2 : ℚ) ^ (53 : Nat) →
      (2 : Int) ^ (52 : Nat) ≤ roundHalfEven x ∧ roundHalfEven x ≤ (2 : Int) ^ (53 : Nat) := by
    intro x h1 h2
    have hf1 : (2 : Int) ^ (52 : Nat) ≤ ⌊x⌋ := by
      apply Int.le_floor.mpr
      exact_mod_cast h1
    have hf2 : ⌊x⌋ < (2 : Int) ^ (53 : Nat) := by
      apply Int.floor_lt.mpr
      exact_mod_cast h2
    unfold roundHalfEven
    simp only
    split_ifs <;> constructor <;> omega
  have hIdem : ∀ q : ℚ, round53 (round53 q) = round53 q := by
    intro q
    by_cases hq : q = 0
    · simp [round53, hq]
    · have hpos : 0 < |q| := abs_pos.mpr hq
      obtain ⟨hx1, hx2⟩ := hScaled |q| hpos
      obtain ⟨hm1, hm2⟩ := hRoundBounds _ hx1 hx2
      have hs : (0 : ℚ) < (2 : ℚ) ^ (Int.log 2 |q| - 52) := zpow_pos (by norm_num) _
      have hy : round53 q = (if 0 < q then (1 : ℚ) else -1) *
          (roundHalfEven (|q| / (2 : ℚ) ^ (Int.log 2 |q| - 52)) : ℚ) *
          (2 : ℚ) ^ (Int.log 2 |q| - 52) := by
        unfold round53
        rw [if_neg hq]
      generalize hm : roundHalfEven (|q| / (2 : ℚ) ^ (Int.log 2 |q| - 52)) = m at hy hm1 hm2
      generalize he : Int.log 2 |q| = e at hy hs
      have hmq : (2 : ℚ) ^ (52 : Nat) ≤ (m : ℚ) := by exact_mod_cast hm1
      have hmpos : (0 : ℚ) < (m : ℚ) := lt_of_lt_of_le (by norm_num) hmq
      have habs : |round53 q| = (m : ℚ) * (2 : ℚ) ^ (e - 52) := by
        rw [hy, abs_mul, abs_mul, abs_of_pos hs, abs_of_pos hmpos]
        by_cases h : 0 < q
        · rw [if_pos h]; simp
        · rw [if_neg h]; simp
      have hypos : 0 < |round53 q| := by
        rw [habs]
        exact mul_pos hmpos hs
      by_cases hlt : m < (2 : Int) ^ (53 : Nat)
      · have hlog : Int.log 2 |round53 q| = e := by
          apply hLogEq _ _ hypos
          · rw [habs, ← hScale52 e]
            exact mul_le_mul_of_nonneg_right hmq (le_of_lt hs)
          · rw [habs, ← hScale53 e]
            have : (m : ℚ) < (2 : ℚ) ^ (53 : Nat) := by exact_mod_cast hlt
            exact mul_lt_mul_of_pos_right this hs
        apply hOfInt _ m
        rw [hlog, habs, mul_div_assoc, div_self (ne_of_gt hs), mul_one]
      · have hm53 : m = (2 : Int) ^ (53 : Nat) := by omega
        have habs2 : |round53 q| = (2 : ℚ) ^ (e + 1) := by
          rw [habs, hm53, ← hScale53 e]
          norm_num
        have hlog : Int.log 2 |round53 q| = e + 1 := by
          apply hLogEq _ _ hypos
          · rw [habs2]
          · rw [habs2]
            exact zpow_lt_zpow_right₀ (by norm_num) (by omega)
        apply hOfInt _ ((2 : Int) ^ (52 : Nat))
        rw [hlog, habs2, ← zpow_sub₀ (by norm_num)]
        have : e + 1 - (e + 1 - 52) = ((52 : Nat) : Int) := by omega
        rw [this, zpow_natCast]
        norm_num
  have hInt : ∀ n : Int, n.natAbs ≤ 2 ^ 53 → round53 (n : ℚ) = (n : ℚ) := by
    intro n h
    by_cases hn : n = 0
    · simp [round53, hn]
    · have hq : (n : ℚ) ≠ 0 := by exact_mod_cast hn
      have hpos : 0 < |(n : ℚ)| := abs_pos.mpr hq
      have habs : |(n : ℚ)| = ((n.natAbs : Nat) : ℚ) := by
        rw [Nat.cast_natAbs]
        simp
      obtain ⟨hl1, hl2⟩ := hLogBounds |(n : ℚ)| hpos
      generalize he : Int.log 2 |(n : ℚ)| = e at hl1 hl2
      have hone : (1 : ℚ) ≤ |(n : ℚ)| := by
        rw [habs]
        have : 1 ≤ n.natAbs := by omega
        exact_mod_cast this
      have hle : |(n : ℚ)| ≤ (2 : ℚ) ^ (53 : Nat) := by
        rw [habs]
        exact_mod_cast h
      have he0 : 0 ≤ e := by
        by_contra hneg
        have : (2 : ℚ) ^ (e + 1) ≤ (2 : ℚ) ^ (0 : Int) :=
          zpow_le_zpow_right₀ (by norm_num) (by omega)
        rw [zpow_zero] at this
        linarith
      have he53 : e ≤ 53 := by
        by_contra hbig
        have : (2 : ℚ) ^ ((54 : Nat) : Int) ≤ (2 : ℚ) ^ e :=
          zpow_le_zpow_right₀ (by norm_num) (by omega)
        rw [zpow_natCast] at this
        have h54 : (2 : ℚ) ^ (53 : Nat) < (2 : ℚ) ^ (54 : Nat) := by norm_num
        linarith
      by_cases h52 : e ≤ 52
      · obtain ⟨k, hk⟩ : ∃ k : Nat, (k : Int) = 52 - e := ⟨(52 - e).toNat, by omega⟩
        apply hOfInt _ ((n.natAbs : Int) * (2 : Int) ^ k)
        rw [he, habs]
        have : e - 52 = -(k : Int) := by omega
        rw [this, zpow_neg, div_inv_eq_mul, zpow_natCast]
        push_cast
        rw [habs]
      · have e53 : e = 53 := by omega
        subst e53
        have heq : |(n : ℚ)| = (2 : ℚ) ^ (53 : Nat) := by
          apply le_antisymm hle
          have : (2 : ℚ) ^ ((53 : Nat) : Int) ≤ |(n : ℚ)| := by exact_mod_cast hl1
          rw [zpow_natCast] at this
          exact this
        apply hOfInt _ ((2 : Int) ^ (52 : Nat))
        rw [he, heq]
        norm_num
  ⟨round53, hIdem, hInt⟩

/-- A `float64` value. -/
inductive F64 where
  | fin (q : ℚ)
  | posInf
  | negInf
  | nan
deriving DecidableEq

/-- The conversion `float64(n)` of an `int`. -/
def toFloat64 (R : Rounding) (n : Int) : F64 := F64.fin (R.rnd (n : ℚ))

/-- Negation of a `float64`. -/
def F64.neg : F64 → F64
  | F64.fin q => F64.fin (-q)
  | F64.posInf => F64.negInf
  | F64.negInf => F64.posInf
  | F64.nan => F64.nan

/-- The `float64` sum `a + b`. -/
def F64.add (R : Rounding) : F64 → F64 → F64
  | F64.fin a, F64.fin b => F64.fin (R.rnd (a + b))
  | F64.nan, _ => F64.nan
  | _, F64.nan => F64.nan
  | F64.posInf, F64.negInf => F64.nan
  | F64.negInf, F64.posInf => F64.nan
  | F64.posInf, _ => F64.posInf
  | _, F64.posInf => F64.posInf
  | F64.negInf, _ => F64.negInf
  | _, F64.negInf => F64.negInf

/-- The `float64` difference `a - b`. -/
def F64.sub (R : Rounding) (a b : F64) : F64 := F64.add R a (F64.neg b)

/-- The `float64` quotient `a / b`: division by zero does not panic, it gives
NaN for `0 / 0` and an infinity otherwise. -/
def F64.div (R : Rounding) : F64 → F64 → F64
  | F64.nan, _ => F64.nan
  | _, F64.nan => F64.nan
  | F64.fin a, F64.fin b =>
    if b = 0 then
      if a = 0 then F64.nan else if 0 < a then F64.posInf else F64.negInf
    else F64.fin (R.rnd (a / b))
  | F64.fin _, _ => F64.fin 0
  | F64.posInf, F64.fin b => if 0 ≤ b then F64.posInf else F64.negInf
  | F64.negInf, F64.fin b => if 0 ≤ b then F64.negInf else F64.posInf
  | _, _ => F64.nan

/-- Library `math.Pow(x, 2)`. -/
def F64.pow2 (R : Rounding) : F64 → F64
  | F64.fin a => F64.fin (R.rnd (a * a))
  | F64.nan => F64.nan
  | _ => F64.posInf

/-- Source `calculateStatistics`: the mean and the variance of `results`. -/
def calculateStatistics (R : Rounding) (results : List Int) : F64 × F64 :=
  if results.length = 0 then (F64.fin 0, F64.fin 0)
  else
    let sum := results.foldl (fun sum r => F64.add R sum (toFloat64 R r)) (F64.fin 0)
    let mean := F64.div R sum (toFloat64 R (results.length : Int))
    let varianceSum := results.foldl
      (fun varianceSum r =>
        F64.add R varianceSum (F64.pow2 R (F64.sub R (toFloat64 R r) mean)))
      (F64.fin 0)
    let variance := F64.div R varianceSum (toFloat64 R ((results.length : Int) - 1))
    (mean, variance)

theorem sliceFrom_of_le {α : Type} (s : List α) (k : Nat) (h : k ≤ s.length) :
    sliceFrom s ((s.length : Int) - (k : Int)) = some (s.drop (s.length - k)) := by
  unfold sliceFrom
  have h1 : (0 : Int) ≤ (s.length : Int) - (k : Int) ∧
      (s.length : Int) - (k : Int) ≤ (s.length : Int) := by omega
  rw [if_pos h1]
  congr 2
  omega

/-- For a non-negative bit-width the function returns the last
`min (bits / 4) len` bytes. -/
theorem truncateHash_nonneg (d : GoString) (bits : Int) (h : 0 ≤ bits) :
    truncateHash d bits = some (d.drop (d.length - min (bits / 4).toNat d.length)) := by
  unfold truncateHash
  by_cases h0 : bits = 0
  · subst h0
    simp
  · rw [if_neg h0]
    have hq : Int.tdiv bits 4 = bits / 4 := Int.tdiv_eq_ediv h (by decide)
    simp only [hq]
    obtain ⟨k, hk⟩ : ∃ k : Nat, bits / 4 = (k : Int) := ⟨(bits / 4).toNat, by omega⟩
    rw [hk]
    simp only [Int.toNat_ofNat]
    by_cases hlt : (d.length : Int) < (k : Int)
    · rw [if_pos hlt]
      have : min k d.length = d.length := by omega
      simp [this]
    · rw [if_neg hlt]
      have hle : k ≤ d.length := by omega
      rw [sliceFrom_of_le d k hle]
      have : min k d.length = k := by omega
      rw [this]

/-- Go division by 4 of a negative number, in terms of floor division. -/
theorem tdiv_four_of_neg (bits : Int) (h : bits < 0) :
    Int.tdiv bits 4 = -((-bits) / 4) := by
  obtain ⟨p, hp⟩ : ∃ p : Int, bits = -p := ⟨-bits, by omega⟩
  subst hp
  rw [Int.neg_tdiv, Int.tdiv_eq_ediv (by omega) (by decide), Int.neg_neg]

/-- Truncation panics exactly for bit-widths of `-4` and below. -/
theorem truncateHash_eq_none_iff (d : GoString) (bits : Int) :
    truncateHash d bits = none ↔ bits ≤ -4 := by
  constructor
  · intro hnone
    by_contra hge
    by_cases hb : 0 ≤ bits
    · rw [truncateHash_nonneg d bits hb] at hnone
      cases hnone
    · have hq : Int.tdiv bits 4 = 0 := by
        rw [tdiv_four_of_neg bits (by omega)]
        omega
      have h0 : bits ≠ 0 := by omega
      have hl : ¬ ((d.length : Int) < 0) := by omega
      simp [truncateHash, h0, hq, sliceFrom, hl] at hnone
  · intro hle
    have h0 : bits ≠ 0 := by omega
    have hq : Int.tdiv bits 4 < 0 := by
      rw [tdiv_four_of_neg bits (by omega)]
      omega
    have hl : ¬ ((d.length : Int) < Int.tdiv bits 4) := by omega
    have hs : ¬ ((0 : Int) ≤ (d.length : Int) - Int.tdiv bits 4 ∧
        (d.length : Int) - Int.tdiv bits 4 ≤ (d.length : Int)) := by omega
    unfold truncateHash
    rw [if_neg h0]
    simp only [if_neg hl]
    unfold sliceFrom
    rw [if_neg hs]

theorem truncateHash_isSome (d : GoString) (bits : Int) (h : -3 ≤ bits) :
    ∃ t, truncateHash d bits = some t := by
  cases hT : truncateHash d bits with
  | some t => exact ⟨t, rfl⟩
  | none =>
    have := (truncateHash_eq_none_iff d bits).mp hT
    omega

/-! ### The mutator -/

theorem mutateByte_val (o : Byte) (r : Nat) :
    (mutateByte o r).val = (o.val + r + 1) % 256 := by
  unfold mutateByte
  simp [Fin.ofNat]

theorem mutateByte_ne_self (o : Byte) (r : Nat) (hr : r < 255) : mutateByte o r ≠ o := by
  intro h
  have h1 := congrArg Fin.val h
  rw [mutateByte_val] at h1
  have h2 : o.val < 256 := o.isLt
  omega

/-- On a non-empty message the mutator does not panic: it replaces the byte at
the drawn index and consumes two raw values. -/
theorem generateRandomMessage_of_lt (msg : GoString) (src : RandSource)
    (h : src 0 % msg.length < msg.length) :
    generateRandomMessage msg src =
      some (msg.set (src 0 % msg.length)
        (mutateByte (msg.get ⟨src 0 % msg.length, h⟩) (src 1 % 255)),
        fun i => src (i + 2)) := by
  have hlen : msg.length ≠ 0 := by omega
  unfold generateRandomMessage Intn
  simp only [if_neg hlen]
  rw [List.getElem?_eq_getElem h]
  simp

theorem generateRandomMessage_nonempty (msg : GoString) (src : RandSource) (h : msg ≠ []) :
    ∃ c s, generateRandomMessage msg src = some (c, s) ∧ c.length = msg.length := by
  have hpos : 0 < msg.length := List.length_pos.mpr h
  have hlt : src 0 % msg.length < msg.length := Nat.mod_lt _ hpos
  exact ⟨_, _, generateRandomMessage_of_lt msg src hlt, by simp⟩

theorem generateRandomMessage_nil (src : RandSource) :
    generateRandomMessage [] src = none := by
  simp [generateRandomMessage, Intn]

theorem generateRandomMessage_length (msg c : GoString) (src s : RandSource)
    (h : generateRandomMessage msg src = some (c, s)) : c.length = msg.length := by
  by_cases hm : msg = []
  · subst hm
    rw [generateRandomMessage_nil] at h
    cases h
  · obtain ⟨c1, s1, h1, hl⟩ := generateRandomMessage_nonempty msg src hm
    rw [h1] at h
    cases h
    exact hl

/-- The mutator is defined whenever the search is sequential or the current
message is non-empty, and it keeps that condition. -/
theorem nextCandidate_defined (initialMsg : GoString) (isSequential : Bool) (count : Nat)
    (cur : GoString) (src : RandSource) (h : isSequential = true ∨ cur ≠ []) :
    ∃ c cur1 src1, nextCandidate initialMsg isSequential count cur src = some (c, cur1, src1) ∧
      (isSequential = true ∨ cur1 ≠ []) := by
  unfold nextCandidate
  cases isSequential with
  | true => exact ⟨_, _, _, rfl, Or.inl rfl⟩
  | false =>
    have hc : cur ≠ [] := by
      rcases h with h | h
      · cases h
      · exact h
    obtain ⟨c, s, hg, hl⟩ := generateRandomMessage_nonempty cur src hc
    refine ⟨c, c, s, ?_, Or.inr ?_⟩
    · simp [hg]
    · intro hnil
      subst hnil
      exact hc (List.length_eq_zero.mp hl.symm)

theorem walk_defined (initialMsg : GoString) (isSequential : Bool) (src : RandSource)
    (h : isSequential = true ∨ initialMsg ≠ []) (k : Nat) :
    ∃ c cur s, walk initialMsg isSequential src k = some (c, cur, s) ∧
      (isSequential = true ∨ cur ≠ []) := by
  induction k with
  | zero => exact ⟨_, _, _, rfl, h⟩
  | succ k ih =>
    obtain ⟨c, cur, s, hw, hc⟩ := ih
    obtain ⟨c1, cur1, s1, hn, hc1⟩ := nextCandidate_defined initialMsg isSequential (k + 1) cur s hc
    refine ⟨c1, cur1, s1, ?_, hc1⟩
    simp [walk, hw, hn]

theorem walk_sequential (initialMsg : GoString) (src : RandSource) (k : Nat) :
    walk initialMsg true src (k + 1) = some (initialMsg ++ Itoa (k + 1), initialMsg, src) := by
  induction k with
  | zero => simp [walk, nextCandidate]
  | succ k ih => 
    rw [walk, ih]
    simp [nextCandidate]

theorem candidate_sequential (initialMsg : GoString) (src : RandSource) (k : Nat)
    (hk : 1 ≤ k) : candidate initialMsg true src k = some (initialMsg ++ Itoa k) := by
  obtain ⟨j, rfl⟩ : ∃ j, k = j + 1 := ⟨k - 1, by omega⟩
  simp [candidate, walk_sequential]

/-! ### The preimage loop -/

/-- One iteration of the preimage loop, given its candidate and the truncated
digest of the candidate. -/
theorem preimageLoop_step (H : GoString → GoString) (initialMsg : GoString)
    (isSequential : Bool) (bits : Int) (target : GoString) (fuel k : Nat)
    (cur : GoString) (s : RandSource) (c cur1 : GoString) (s1 : RandSource) (t : GoString)
    (hn : nextCandidate initialMsg isSequential (k + 1) cur s = some (c, cur1, s1))
    (ht : truncateHash (H c) bits = some t) :
    preimageLoop H initialMsg isSequential bits target (fuel + 1) k cur s =
      if t = target then Outcome.returned ((k + 1 : Nat) : Int)
      else if k + 1 > 5000000 then Outcome.returned (-1)
      else preimageLoop H initialMsg isSequential bits target fuel (k + 1) cur1 s1 := by
  simp only [preimageLoop, hn, ht]

/-- Whatever the loop returns is `-1` or a count above the entry counter and at
most 5000001. -/
theorem preimageLoop_range (H : GoString → GoString) (initialMsg : GoString)
    (isSequential : Bool) (bits : Int) (target : GoString) (fuel : Nat) :
    ∀ (k : Nat) (cur : GoString) (s : RandSource) (n : Int), k ≤ 5000000 →
      preimageLoop H initialMsg isSequential bits target fuel k cur s = Outcome.returned n →
      n = -1 ∨ ((k : Int) < n ∧ n ≤ 5000001) := by
  induction fuel with
  | zero =>
    intro k cur s n _ h
    simp [preimageLoop] at h
  | succ fuel ih =>
    intro k cur s n hk h
    cases hn : nextCandidate initialMsg isSequential (k + 1) cur s with
    | none => simp [preimageLoop, hn] at h
    | some p =>
      obtain ⟨c, cur1, s1⟩ := p
      cases ht : truncateHash (H c) bits with
      | none => simp [preimageLoop, hn, ht] at h
      | some t =>
        rw [preimageLoop_step H initialMsg isSequential bits target fuel k cur s c cur1 s1 t hn ht] at h
        by_cases hm : t = target
        · rw [if_pos hm] at h
          injection h with h
          right
          omega
        · rw [if_neg hm] at h
          by_cases hcap : k + 1 > 5000000
          · rw [if_pos hcap] at h
            injection h with h
            left
            omega
          · rw [if_neg hcap] at h
            rcases ih (k + 1) cur1 s1 n (by omega) h with h1 | h1
            · exact Or.inl h1
            · right
              omega

/-- The loop never panics and never runs out of fuel when the mutator and the
truncation are defined and the fuel covers the attempts left up to the cap. -/
theorem preimageLoop_total (H : GoString → GoString) (initialMsg : GoString)
    (isSequential : Bool) (bits : Int) (target : GoString) (hb : -3 ≤ bits) (fuel : Nat) :
    ∀ (k : Nat) (cur : GoString) (s : RandSource),
      (isSequential = true ∨ cur ≠ []) → k ≤ 5000000 → 5000001 ≤ k + fuel →
      ∃ n, preimageLoop H initialMsg isSequential bits target fuel k cur s =
        Outcome.returned n := by
  induction fuel with
  | zero =>
    intro k cur s _ hk hf
    omega
  | succ fuel ih =>
    intro k cur s hc hk hf
    obtain ⟨c, cur1, s1, hn, hc1⟩ := nextCandidate_defined initialMsg isSequential (k + 1) cur s hc
    obtain ⟨t, ht⟩ := truncateHash_isSome (H c) bits hb
    rw [preimageLoop_step H initialMsg isSequential bits target fuel k cur s c cur1 s1 t hn ht]
    by_cases hm : t = target
    · rw [if_pos hm]
      exact ⟨_, rfl⟩
    · rw [if_neg hm]
      by_cases hcap : k + 1 > 5000000
      · rw [if_pos hcap]
        exact ⟨_, rfl⟩
      · rw [if_neg hcap]
        exact ih (k + 1) cur1 s1 hc1 (by omega) (by omega)

/-- Extra fuel does not change a run that ended by itself. -/
theorem preimageLoop_fuel_add (H : GoString → GoString) (initialMsg : GoString)
    (isSequential : Bool) (bits : Int) (target : GoString) (extra fuel : Nat) :
    ∀ (k : Nat) (cur : GoString) (s : RandSource),
      preimageLoop H initialMsg isSequential bits target fuel k cur s ≠ Outcome.outOfFuel →
      preimageLoop H initialMsg isSequential bits target (fuel + extra) k cur s =
        preimageLoop H initialMsg isSequential bits target fuel k cur s := by
  induction fuel with
  | zero =>
    intro k cur s h
    exact absurd rfl h
  | succ fuel ih =>
    intro k cur s h
    have hf : fuel + 1 + extra = (fuel + extra) + 1 := by omega
    rw [hf]
    cases hn : nextCandidate initialMsg isSequential (k + 1) cur s with
    | none => simp [preimageLoop, hn]
    | some p =>
      obtain ⟨c, cur1, s1⟩ := p
      cases ht : truncateHash (H c) bits with
      | none => simp [preimageLoop, hn, ht]
      | some t =>
        rw [preimageLoop_step H initialMsg isSequential bits target fuel k cur s c cur1 s1 t hn ht] at h
        rw [preimageLoop_step H initialMsg isSequential bits target fuel k cur s c cur1 s1 t hn ht,
          preimageLoop_step H initialMsg isSequential bits target (fuel + extra) k cur s c cur1 s1 t hn ht]
        by_cases hm : t = target
        · simp [hm]
        · rw [if_neg hm] at h ⊢
          rw [if_neg hm]
          by_cases hcap : k + 1 > 5000000
          · simp [hcap]
          · rw [if_neg hcap] at h ⊢
            rw [if_neg hcap]
            exact ih (k + 1) cur1 s1 h

theorem candidate_succ (initialMsg : GoString) (isSequential : Bool) (src : RandSource)
    (k : Nat) (c0 cur : GoString) (s : RandSource) (c cur1 : GoString) (s1 : RandSource)
    (hw : walk initialMsg isSequential src k = some (c0, cur, s))
    (hn : nextCandidate initialMsg isSequential (k + 1) cur s = some (c, cur1, s1)) :
    walk initialMsg isSequential src (k + 1) = some (c, cur1, s1) ∧
      candidate initialMsg isSequential src (k + 1) = some c := by
  have h1 : walk initialMsg isSequential src (k + 1) = some (c, cur1, s1) := by
    simp [walk, hw, hn]
  exact ⟨h1, by simp [candidate, h1]⟩

/-- Soundness of the preimage loop against the sequence of candidates: a
returned count is the first attempt after the entry counter that hits. -/
theorem preimageLoop_sound (H : GoString → GoString) (initialMsg : GoString)
    (isSequential : Bool) (src : RandSource) (bits : Int) (target : GoString) (fuel : Nat) :
    ∀ (k : Nat) (c0 cur : GoString) (s : RandSource) (n : Int),
      walk initialMsg isSequential src k = some (c0, cur, s) →
      preimageLoop H initialMsg isSequential bits target fuel k cur s = Outcome.returned n →
      n ≠ -1 →
      ∃ r : Nat, n = (r : Int) ∧ k < r ∧
        hitAt H initialMsg isSequential src bits target r ∧
        ∀ j, k < j → j < r → missAt H initialMsg isSequential src bits target j := by
  induction fuel with
  | zero =>
    intro k c0 cur s n _ h
    simp [preimageLoop] at h
  | succ fuel ih =>
    intro k c0 cur s n hw h hne
    cases hn : nextCandidate initialMsg isSequential (k + 1) cur s with
    | none => simp [preimageLoop, hn] at h
    | some p =>
      obtain ⟨c, cur1, s1⟩ := p
      obtain ⟨hw1, hc1⟩ := candidate_succ initialMsg isSequential src k c0 cur s c cur1 s1 hw hn
      cases ht : truncateHash (H c) bits with
      | none => simp [preimageLoop, hn, ht] at h
      | some t =>
        rw [preimageLoop_step H initialMsg isSequential bits target fuel k cur s c cur1 s1 t hn ht] at h
        by_cases hm : t = target
        · rw [if_pos hm] at h
          injection h with h
          refine ⟨k + 1, h.symm, by omega, ⟨c, hc1, by rw [ht, hm]⟩, ?_⟩
          intro j h1 h2
          omega
        · rw [if_neg hm] at h
          by_cases hcap : k + 1 > 5000000
          · rw [if_pos hcap] at h
            injection h with h
            exact absurd h.symm hne
          · rw [if_neg hcap] at h
            obtain ⟨r, hr, hkr, hhit, hmiss⟩ := ih (k + 1) c cur1 s1 n hw1 h hne
            refine ⟨r, hr, by omega, hhit, ?_⟩
            intro j h1 h2
            by_cases hj : j = k + 1
            · subst hj
              exact ⟨c, t, hc1, ht, hm⟩
            · exact hmiss j (by omega) h2

/-- Completeness of the preimage loop: misses up to the cap are skipped. -/
theorem preimageLoop_skip (H : GoString → GoString) (initialMsg : GoString)
    (isSequential : Bool) (src : RandSource) (bits : Int) (target : GoString) (n : Nat) :
    ∀ (fuel k : Nat) (c0 cur : GoString) (s : RandSource),
      walk initialMsg isSequential src k = some (c0, cur, s) →
      k + n ≤ 5000000 →
      (∀ j, k < j → j ≤ k + n → missAt H initialMsg isSequential src bits target j) →
      ∃ c1 cur1 s1, walk initialMsg isSequential src (k + n) = some (c1, cur1, s1) ∧
        preimageLoop H initialMsg isSequential bits target (fuel + n) k cur s =
          preimageLoop H initialMsg isSequential bits target fuel (k + n) cur1 s1 := by
  induction n with
  | zero =>
    intro fuel k c0 cur s hw _ _
    exact ⟨c0, cur, s, hw, rfl⟩
  | succ n ih =>
    intro fuel k c0 cur s hw hcap hmiss
    obtain ⟨c, t, hc, ht, hne⟩ := hmiss (k + 1) (by omega) (by omega)
    cases hw1 : walk initialMsg isSequential src (k + 1) with
    | none => simp [candidate, hw1] at hc
    | some p =>
      obtain ⟨c', cur1, s1⟩ := p
      have hcc : c' = c := by simpa [candidate, hw1] using hc
      subst hcc
      have hn : nextCandidate initialMsg isSequential (k + 1) cur s = some (c', cur1, s1) := by
        simpa [walk, hw] using hw1
      obtain ⟨c2, cur2, s2, hw2, heq⟩ := ih fuel (k + 1) c' cur1 s1 hw1 (by omega)
        (fun j h1 h2 => hmiss j (by omega) (by omega))
      have e1 : k + (n + 1) = k + 1 + n := by omega
      have e2 : fuel + (n + 1) = (fuel + n) + 1 := by omega
      refine ⟨c2, cur2, s2, by rw [e1]; exact hw2, ?_⟩
      rw [e1, e2,
        preimageLoop_step H initialMsg isSequential bits target (fuel + n) k cur s c' cur1 s1 t hn ht,
        if_neg hne, if_neg (by omega)]
      exact heq

theorem generateRandomMessage_singleton (o : Byte) (src : RandSource) :
    generateRandomMessage [o] src =
      some ([mutateByte o (src 1 % 255)], fun i => src (i + 2)) := by
  unfold generateRandomMessage Intn
  simp [Nat.mod_one]

/-- One attempt of the cycle moves the current byte as intended. -/
theorem cycleByte_succ (k : Nat) (hk : k + 1 ≤ 5000000) :
    mutateByte (cycleByte k) (cycleDraws (1 + 2 * k) % 255) = cycleByte (k + 1) := by
  by_cases h0 : k = 0
  · subst h0
    decide
  · by_cases hodd : k % 2 = 1
    · have hd : cycleDraws (1 + 2 * k) = 0 := by
        unfold cycleDraws
        rw [if_neg (by omega), if_neg (by omega), if_neg (by omega)]
      have h1 : cycleByte k = 98 := by
        unfold cycleByte
        rw [if_neg h0, if_pos hodd]
      have h2 : cycleByte (k + 1) = 99 := by
        unfold cycleByte
        rw [if_neg (by omega), if_neg (by omega)]
      rw [hd, h1, h2]
      decide
    · have hd : cycleDraws (1 + 2 * k) = 254 := by
        unfold cycleDraws
        rw [if_neg (by omega), if_neg (by omega), if_pos (by omega)]
      have h1 : cycleByte k = 99 := by
        unfold cycleByte
        rw [if_neg h0, if_neg hodd]
      have h2 : cycleByte (k + 1) = 98 := by
        unfold cycleByte
        rw [if_neg (by omega), if_pos (by omega)]
      rw [hd, h1, h2]
      decide

/-- The mutator state after `k` attempts of the cycle. -/
theorem cycle_walk (k : Nat) (hk : k ≤ 5000000) :
    walk [97] false cycleDraws k =
      some ([cycleByte k], [cycleByte k], fun i => cycleDraws (i + 2 * k)) := by
  induction k with
  | zero => rfl
  | succ k ih =>
    rw [walk, ih (by omega)]
    simp only [nextCandidate, Bool.false_eq_true, if_false]
    rw [generateRandomMessage_singleton]
    simp only [cycleByte_succ k hk]
    have hs : (fun i => cycleDraws (i + 2 + 2 * k)) = fun i => cycleDraws (i + 2 * (k + 1)) := by
      funext i
      congr 1
      omega
    rw [hs]

theorem cycle_last_byte :
    mutateByte (cycleByte 5000000) (cycleDraws (1 + 2 * 5000000) % 255) = 97 := by
  decide

theorem cycle_candidate (k : Nat) (h1 : 1 ≤ k) (hk : k ≤ 5000000) :
    candidate [97] false cycleDraws k = some [if k % 2 = 1 then 98 else 99] := by
  have h0 : k ≠ 0 := by omega
  simp [candidate, cycle_walk k hk, cycleByte, h0]

theorem cycle_candidate_last :
    candidate [97] false cycleDraws 5000001 = some [97] := by
  unfold candidate
  rw [walk, cycle_walk 5000000 (by omega)]
  simp only [nextCandidate, Bool.false_eq_true, if_false]
  rw [generateRandomMessage_singleton]
  simp only [cycle_last_byte]
  rfl


theorem nextCandidate_of_candidate (initialMsg : GoString) (isSequential : Bool)
    (src : RandSource) (k : Nat) (c0 cur : GoString) (s : RandSource) (c : GoString)
    (hw : walk initialMsg isSequential src k = some (c0, cur, s))
    (hc : candidate initialMsg isSequential src (k + 1) = some c) :
    ∃ cur1 s1, nextCandidate initialMsg isSequential (k + 1) cur s = some (c, cur1, s1) := by
  cases hn : nextCandidate initialMsg isSequential (k + 1) cur s with
  | none => simp [candidate, walk, hw, hn] at hc
  | some p =>
    obtain ⟨c', cur1, s1⟩ := p
    have : c' = c := by simpa [candidate, walk, hw, hn] using hc
    subst this
    exact ⟨cur1, s1, rfl⟩

/-- A hit on the next attempt is returned. -/
theorem preimageLoop_hit (H : GoString → GoString) (initialMsg : GoString)
    (isSequential : Bool) (src : RandSource) (bits : Int) (target : GoString)
    (fuel k : Nat) (c0 cur : GoString) (s : RandSource)
    (hw : walk initialMsg isSequential src k = some (c0, cur, s))
    (hh : hitAt H initialMsg isSequential src bits target (k + 1)) :
    preimageLoop H initialMsg isSequential bits target (fuel + 1) k cur s =
      Outcome.returned ((k + 1 : Nat) : Int) := by
  obtain ⟨c, hc, ht⟩ := hh
  obtain ⟨cur1, s1, hn⟩ := nextCandidate_of_candidate initialMsg isSequential src k c0 cur s c hw hc
  rw [preimageLoop_step H initialMsg isSequential bits target fuel k cur s c cur1 s1 target hn ht,
    if_pos rfl]

/-- The preimage search returns the first attempt that hits, when there is one
among the first 5000001 attempts. -/
theorem PreimageAttack_first_hit (H : GoString → GoString) (src : RandSource)
    (initialMsg : GoString) (isSequential : Bool) (bits : Int) (target : GoString) (r : Nat)
    (htarget : truncateHash (H initialMsg) bits = some target)
    (h1 : 1 ≤ r) (hr : r ≤ 5000001)
    (hh : hitAt H initialMsg isSequential src bits target r)
    (hmiss : ∀ j, 1 ≤ j → j < r → missAt H initialMsg isSequential src bits target j) :
    PreimageAttack H src initialMsg isSequential bits = Outcome.returned (r : Int) := by
  unfold PreimageAttack
  simp only [htarget]
  have hf : searchFuel = (5000001 - r) + 1 + (r - 1) := by
    unfold searchFuel
    omega
  rw [hf]
  obtain ⟨c1, cur1, s1, hw, heq⟩ :=
    preimageLoop_skip H initialMsg isSequential src bits target (r - 1) ((5000001 - r) + 1) 0
      initialMsg initialMsg src rfl (by omega)
      (fun j hj1 hj2 => hmiss j (by omega) (by omega))
  rw [heq]
  have hk : 0 + (r - 1) + 1 = r := by omega
  have hh1 : hitAt H initialMsg isSequential src bits target (0 + (r - 1) + 1) := by
    rw [hk]; exact hh
  rw [preimageLoop_hit H initialMsg isSequential src bits target (5000001 - r) (0 + (r - 1))
    c1 cur1 s1 hw hh1, hk]

/-- The preimage search returns `-1` when the first 5000001 attempts all miss. -/
theorem PreimageAttack_all_miss (H : GoString → GoString) (src : RandSource)
    (initialMsg : GoString) (isSequential : Bool) (bits : Int) (target : GoString)
    (htarget : truncateHash (H initialMsg) bits = some target)
    (hmiss : ∀ j, 1 ≤ j → j ≤ 5000001 → missAt H initialMsg isSequential src bits target j) :
    PreimageAttack H src initialMsg isSequential bits = Outcome.returned (-1) := by
  unfold PreimageAttack
  simp only [htarget]
  have hf : searchFuel = 0 + 1 + 5000000 := by
    unfold searchFuel
    omega
  rw [hf]
  obtain ⟨c1, cur1, s1, hw, heq⟩ :=
    preimageLoop_skip H initialMsg isSequential src bits target 5000000 (0 + 1) 0
      initialMsg initialMsg src rfl (by omega)
      (fun j hj1 hj2 => hmiss j (by omega) (by omega))
  rw [heq]
  obtain ⟨c, t, hc, ht, hne⟩ := hmiss (0 + 5000000 + 1) (by omega) (by omega)
  obtain ⟨cur2, s2, hn⟩ :=
    nextCandidate_of_candidate initialMsg isSequential src (0 + 5000000) c1 cur1 s1 c hw hc
  rw [preimageLoop_step H initialMsg isSequential bits target 0 (0 + 5000000) cur1 s1 c cur2 s2 t hn ht,
    if_neg hne, if_pos (by omega)]

/-! ### Concrete digests -/

/-- The FIPS 180 test vector: SHA-1 of "abc" is
a9993e364706816aba3e25717850c26c9cd0d89d. -/
theorem calculateHash_abc :
    calculateHash [97, 98, 99] =
      [97, 57, 57, 57, 51, 101, 51, 54, 52, 55, 48, 54, 56, 49, 54, 97, 98, 97, 51, 101,
       50, 53, 55, 49, 55, 56, 53, 48, 99, 50, 54, 99, 57, 99, 100, 48, 100, 56, 57, 100] := by
  decide!

/-- SHA-1 of "a" is 86f7e437faa5a7fce15d1ddcb9eaeaea377667b8. -/
theorem calculateHash_a :
    calculateHash [97] =
      [56, 54, 102, 55, 101, 52, 51, 55, 102, 97, 97, 53, 97, 55, 102, 99, 101, 49, 53, 100,
       49, 100, 100, 99, 98, 57, 101, 97, 101, 97, 101, 97, 51, 55, 55, 54, 54, 55, 98, 56] := by
  decide!

/-- SHA-1 of "b" is e9d71f5ee7c92d6dc9e92ffdad17b8bd49418f98. -/
theorem calculateHash_b :
    calculateHash [98] =
      [101, 57, 100, 55, 49, 102, 53, 101, 101, 55, 99, 57, 50, 100, 54, 100, 99, 57, 101, 57,
       50, 102, 102, 100, 97, 100, 49, 55, 98, 56, 98, 100, 52, 57, 52, 49, 56, 102, 57, 56] := by
  decide!

/-- SHA-1 of "c" is 84a516841ba77a5b4648de2cd0dfcb30ea46dbb4. -/
theorem calculateHash_c :
    calculateHash [99] =
      [56, 52, 97, 53, 49, 54, 56, 52, 49, 98, 97, 55, 55, 97, 53, 98, 52, 54, 52, 56,
       100, 101, 50, 99, 100, 48, 100, 102, 99, 98, 51, 48, 101, 97, 52, 54, 100, 98, 98, 52] := by
  decide!

theorem truncate16_a : truncateHash (calculateHash [97]) 16 = some [54, 55, 98, 56] := by
  rw [calculateHash_a]; decide

theorem truncate16_b : truncateHash (calculateHash [98]) 16 = some [56, 102, 57, 56] := by
  rw [calculateHash_b]; decide

theorem truncate16_c : truncateHash (calculateHash [99]) 16 = some [100, 98, 98, 52] := by
  rw [calculateHash_c]; decide

theorem truncate4_a : truncateHash (calculateHash [97]) 4 = some [56] := by
  rw [calculateHash_a]; decide

theorem truncate4_b : truncateHash (calculateHash [98]) 4 = some [56] := by
  rw [calculateHash_b]; decide

theorem truncate4_c : truncateHash (calculateHash [99]) 4 = some [52] := by
  rw [calculateHash_c]; decide

/-- The preimage search of "TEST" at 8 bits, sequential mode. -/
theorem preimage_TEST_8 :
    PreimageAttack calculateHash (fun _ => 0) [84, 69, 83, 84] true 8 =
      Outcome.returned 28 := by
  decide!

/-! ### Claims about the preimage search -/

/-- C1 (counterexample): with SHA-1, the one-byte message "a", random mode,
16 bits and draws that make the candidates alternate between "b" and "c" for
5000000 attempts and come back to "a" on attempt 5000001, the search returns
5000001, which is neither -1 nor a count between 1 and 5000000. -/
theorem PreimageAttack_returns_5000001 :
    PreimageAttack calculateHash cycleDraws [97] false 16 = Outcome.returned 5000001 ∧
      ¬ ((5000001 : Int) = -1 ∨ ((1 : Int) ≤ 5000001 ∧ (5000001 : Int) ≤ 5000000)) := by
  refine ⟨?_, by omega⟩
  have h := PreimageAttack_first_hit calculateHash cycleDraws [97] false 16 [54, 55, 98, 56]
    5000001 truncate16_a (by omega) (by omega)
    ⟨[97], cycle_candidate_last, truncate16_a⟩
    (fun j h1 h2 => by
      by_cases hodd : j % 2 = 1
      · refine ⟨[98], [56, 102, 57, 56], ?_, truncate16_b, by decide⟩
        rw [cycle_candidate j h1 (by omega), if_pos hodd]
      · refine ⟨[99], [100, 98, 98, 52], ?_, truncate16_c, by decide⟩
        rw [cycle_candidate j h1 (by omega), if_neg hodd])
  exact h

/-- C1 (amended): whatever `PreimageAttack` returns, for every digest function,
initial message, strategy, random draws and bit-width, is either -1 or an
attempt count between 1 and 5000001 inclusive. -/
theorem PreimageAttack_result_range (H : GoString → GoString) (src : RandSource)
    (initialMsg : GoString) (isSequential : Bool) (bits : Int) (n : Int)
    (h : PreimageAttack H src initialMsg isSequential bits = Outcome.returned n) :
    n = -1 ∨ (1 ≤ n ∧ n ≤ 5000001) := by
  unfold PreimageAttack at h
  cases ht : truncateHash (H initialMsg) bits with
  | none => simp [ht] at h
  | some target =>
    simp only [ht] at h
    rcases preimageLoop_range H initialMsg isSequential bits target searchFuel 0 initialMsg src n
      (by omega) h with h1 | h1
    · exact Or.inl h1
    · right
      omega

/-- C1 (amended) at a concrete input: the sequential search of "TEST" at 8 bits
returns 28. -/
theorem PreimageAttack_result_range_witness :
    PreimageAttack calculateHash (fun _ => 0) [84, 69, 83, 84] true 8 = Outcome.returned 28 ∧
      ((28 : Int) = -1 ∨ ((1 : Int) ≤ 28 ∧ (28 : Int) ≤ 5000001)) :=
  ⟨preimage_TEST_8,
   PreimageAttack_result_range calculateHash (fun _ => 0) [84, 69, 83, 84] true 8 28
     preimage_TEST_8⟩

/-- C2: in sequential mode, for every initial message `m` and every bit-width
`bits ≥ 0`, the target is `truncateHash (H m) bits`, the `k`-th candidate is `m`
followed by the decimal form of `k`, and whenever `PreimageAttack` returns
`n ≠ -1`, candidate `n` has truncated digest equal to the target and no
candidate `j` with `1 ≤ j < n` does. -/
theorem PreimageAttack_sequential_first_match (H : GoString → GoString) (src : RandSource)
    (m : GoString) (bits : Int) (n : Int) (hb : 0 ≤ bits)
    (hret : PreimageAttack H src m true bits = Outcome.returned n) (hn : n ≠ -1) :
    ∃ (target : GoString) (k : Nat),
      truncateHash (H m) bits = some target ∧ n = (k : Int) ∧ 1 ≤ k ∧
      (∀ j, 1 ≤ j → candidate m true src j = some (m ++ Itoa j)) ∧
      truncateHash (H (m ++ Itoa k)) bits = some target ∧
      ∀ j, 1 ≤ j → j < k → ∃ t, truncateHash (H (m ++ Itoa j)) bits = some t ∧ t ≠ target := by
  have _ := hb
  unfold PreimageAttack at hret
  cases ht : truncateHash (H m) bits with
  | none => simp [ht] at hret
  | some target =>
    simp only [ht] at hret
    obtain ⟨r, hr, hpos, hhit, hmiss⟩ :=
      preimageLoop_sound H m true src bits target searchFuel 0 m m src n rfl hret hn
    refine ⟨target, r, rfl, hr, by omega, fun j hj => candidate_sequential m src j hj, ?_, ?_⟩
    · obtain ⟨c, hc, hct⟩ := hhit
      rw [candidate_sequential m src r (by omega)] at hc
      cases hc
      exact hct
    · intro j h1 h2
      obtain ⟨c, t, hc, hct, hne⟩ := hmiss j (by omega) h2
      rw [candidate_sequential m src j h1] at hc
      cases hc
      exact ⟨t, hct, hne⟩

/-- C2 at a concrete input: the sequential search of "TEST" at 8 bits returns
28, so candidate 28 is the first whose truncated digest equals the target. -/
theorem PreimageAttack_sequential_first_match_witness :
    ∃ (target : GoString) (k : Nat),
      truncateHash (calculateHash [84, 69, 83, 84]) 8 = some target ∧ (28 : Int) = (k : Int) ∧
      1 ≤ k ∧
      (∀ j, 1 ≤ j →
        candidate [84, 69, 83, 84] true (fun _ => 0) j = some ([84, 69, 83, 84] ++ Itoa j)) ∧
      truncateHash (calculateHash ([84, 69, 83, 84] ++ Itoa k)) 8 = some target ∧
      ∀ j, 1 ≤ j → j < k →
        ∃ t, truncateHash (calculateHash ([84, 69, 83, 84] ++ Itoa j)) 8 = some t ∧ t ≠ target :=
  PreimageAttack_sequential_first_match calculateHash (fun _ => 0) [84, 69, 83, 84] 8 28
    (by decide) preimage_TEST_8 (by decide)

/-- C5: with `bits = 0` the preimage search returns 1, for every initial message
in sequential mode and every non-empty initial message (and any draws) in random
mode, because the target and every candidate's truncated digest are empty. -/
theorem PreimageAttack_zero_bits (H : GoString → GoString) (src : RandSource)
    (initialMsg : GoString) (isSequential : Bool)
    (h : isSequential = true ∨ initialMsg ≠ []) :
    PreimageAttack H src initialMsg isSequential 0 = Outcome.returned 1 ∧
      truncateHash (H initialMsg) 0 = some [] ∧
      ∃ c, candidate initialMsg isSequential src 1 = some c ∧
        truncateHash (H c) 0 = some [] := by
  have ht : ∀ d : GoString, truncateHash d 0 = some [] := fun d => by simp [truncateHash]
  obtain ⟨c, cur1, s1, hn, _⟩ := nextCandidate_defined initialMsg isSequential (0 + 1)
    initialMsg src h
  obtain ⟨_, hc⟩ := candidate_succ initialMsg isSequential src 0 initialMsg initialMsg src
    c cur1 s1 rfl hn
  refine ⟨?_, ht _, c, hc, ht _⟩
  unfold PreimageAttack
  simp only [ht]
  have hf : searchFuel = 5000000 + 1 := rfl
  rw [hf, preimageLoop_step H initialMsg isSequential 0 [] 5000000 0 initialMsg src c cur1 s1 []
    hn (ht _), if_pos rfl]
  rfl

/-- C5 at a concrete input: the one-byte message "a" in random mode. -/
theorem PreimageAttack_zero_bits_witness :
    ((false = true ∨ ([97] : GoString) ≠ [])) ∧
    (PreimageAttack calculateHash (fun _ => 0) [97] false 0 = Outcome.returned 1 ∧
      truncateHash (calculateHash [97]) 0 = some [] ∧
      ∃ c, candidate [97] false (fun _ => 0) 1 = some c ∧
        truncateHash (calculateHash c) 0 = some []) :=
  ⟨Or.inr (by decide),
   PreimageAttack_zero_bits calculateHash (fun _ => 0) [97] false (Or.inr (by decide))⟩

/-! ### Claims about truncation and the mutated byte -/

/-- C7: for every string `d` and every non-negative bit-width `b` that is a
multiple of 4, `truncateHash d b` has length exactly `b / 4` when
`b / 4 ≤ len d`, and is `d` itself when `b / 4` exceeds `len d`. -/
theorem truncateHash_multiple_of_four (d : GoString) (b : Int) (hb : 0 ≤ b) (h4 : 4 ∣ b) :
    ∃ t, truncateHash d b = some t ∧
      (b / 4 ≤ (d.length : Int) → (t.length : Int) = b / 4) ∧
      ((d.length : Int) < b / 4 → t = d) := by
  have _ := h4
  refine ⟨_, truncateHash_nonneg d b hb, ?_, ?_⟩
  · intro hle
    rw [List.length_drop]
    omega
  · intro hlt
    have : min (b / 4).toNat d.length = d.length := by omega
    simp [this]

/-- C7 at a concrete input: the last four bytes of a five-byte string. -/
theorem truncateHash_multiple_of_four_witness :
    (0 : Int) ≤ 16 ∧ (4 : Int) ∣ 16 ∧
    ∃ t, truncateHash [97, 98, 99, 100, 101] 16 = some t ∧
      ((16 : Int) / 4 ≤ (([97, 98, 99, 100, 101] : GoString).length : Int) →
        (t.length : Int) = 16 / 4) ∧
      ((([97, 98, 99, 100, 101] : GoString).length : Int) < 16 / 4 →
        t = [97, 98, 99, 100, 101]) :=
  ⟨by decide, by decide,
   truncateHash_multiple_of_four [97, 98, 99, 100, 101] 16 (by decide) (by decide)⟩

/-- C8: for every string `d` and every bit-width `bits ≥ 0`, `truncateHash d bits`
is a suffix of `d`, namely its last `min (bits / 4) (len d)` characters, so it is
never longer than `d`. -/
theorem truncateHash_suffix (d : GoString) (bits : Int) (hb : 0 ≤ bits) :
    ∃ t, truncateHash d bits = some t ∧
      t = d.drop (d.length - min (bits / 4).toNat d.length) ∧
      List.IsSuffix t d ∧
      t.length = min (bits / 4).toNat d.length ∧
      t.length ≤ d.length := by
  refine ⟨_, truncateHash_nonneg d bits hb, rfl, List.drop_suffix _ _, ?_, ?_⟩
  · rw [List.length_drop]
    omega
  · rw [List.length_drop]
    omega

/-- C8 at a concrete input: a bit-width that is not a multiple of 4. -/
theorem truncateHash_suffix_witness :
    (0 : Int) ≤ 10 ∧
    ∃ t, truncateHash [97, 98, 99, 100, 101] 10 = some t ∧
      t = ([97, 98, 99, 100, 101] : GoString).drop
        (([97, 98, 99, 100, 101] : GoString).length -
          min ((10 : Int) / 4).toNat ([97, 98, 99, 100, 101] : GoString).length) ∧
      List.IsSuffix t [97, 98, 99, 100, 101] ∧
      t.length = min ((10 : Int) / 4).toNat ([97, 98, 99, 100, 101] : GoString).length ∧
      t.length ≤ ([97, 98, 99, 100, 101] : GoString).length :=
  ⟨by decide, truncateHash_suffix [97, 98, 99, 100, 101] 10 (by decide)⟩

/-- C9: `truncateHash d 0` is the empty string for every string `d`. -/
theorem truncateHash_zero (d : GoString) : truncateHash d 0 = some [] := by
  simp [truncateHash]

/-- C10: for every original byte `o` and every draw `r` in `[0, 255)`, the
replacement byte `(o + r + 1) mod 256` that `generateRandomMessage` writes
differs from `o`. -/
theorem mutated_byte_differs (o : Byte) (r : Nat) (hr : r < 255) :
    (mutateByte o r).val = (o.val + r + 1) % 256 ∧ mutateByte o r ≠ o ∧
      ∀ src : RandSource, src 1 = r →
        ∃ b s, generateRandomMessage [o] src = some ([b], s) ∧ b = mutateByte o r ∧ b ≠ o := by
  refine ⟨mutateByte_val o r, mutateByte_ne_self o r hr, ?_⟩
  intro src hsrc
  refine ⟨mutateByte o r, fun i => src (i + 2), ?_, rfl, mutateByte_ne_self o r hr⟩
  rw [generateRandomMessage_singleton, hsrc, Nat.mod_eq_of_lt hr]

/-- C10 at a concrete input: the largest byte with the largest shift. -/
theorem mutated_byte_differs_witness :
    (254 : Nat) < 255 ∧
    ((mutateByte 255 254).val = ((255 : Byte).val + 254 + 1) % 256 ∧ mutateByte 255 254 ≠ 255 ∧
      ∀ src : RandSource, src 1 = 254 →
        ∃ b s, generateRandomMessage [255] src = some ([b], s) ∧ b = mutateByte 255 254 ∧
          b ≠ 255) :=
  ⟨by decide, mutated_byte_differs 255 254 (by decide)⟩

/-! ### The birthday loop -/

/-- One iteration of the birthday loop, given its candidate and the truncated
digest of the candidate. -/
theorem birthdayLoop_step (H : GoString → GoString) (initialMsg : GoString)
    (isSequential : Bool) (bits : Int) (fuel k : Nat)
    (cur : GoString) (s : RandSource) (seen : SeenMap)
    (c cur1 : GoString) (s1 : RandSource) (t : GoString)
    (hn : nextCandidate initialMsg isSequential (k + 1) cur s = some (c, cur1, s1))
    (ht : truncateHash (H c) bits = some t) :
    birthdayLoop H initialMsg isSequential bits (fuel + 1) k cur s seen =
      if collides seen t c = true then Outcome.returned ((k + 1 : Nat) : Int)
      else if k + 1 > 5000000 then Outcome.returned (-1)
      else birthdayLoop H initialMsg isSequential bits fuel (k + 1) cur1 s1
        (Function.update seen t (some ⟨c, H c⟩)) := by
  simp only [birthdayLoop, hn, ht]

theorem collides_eq_true_iff (seen : SeenMap) (t c : GoString) :
    collides seen t c = true ↔ ∃ e, seen t = some e ∧ e.message ≠ c := by
  unfold collides
  cases h : seen t with
  | none => simp
  | some e => simp

/-- Whatever the loop returns is `-1` or a count above the entry counter and at
most 5000001. -/
theorem birthdayLoop_range (H : GoString → GoString) (initialMsg : GoString)
    (isSequential : Bool) (bits : Int) (fuel : Nat) :
    ∀ (k : Nat) (cur : GoString) (s : RandSource) (seen : SeenMap) (n : Int), k ≤ 5000000 →
      birthdayLoop H initialMsg isSequential bits fuel k cur s seen = Outcome.returned n →
      n = -1 ∨ ((k : Int) < n ∧ n ≤ 5000001) := by
  induction fuel with
  | zero =>
    intro k cur s seen n _ h
    simp [birthdayLoop] at h
  | succ fuel ih =>
    intro k cur s seen n hk h
    cases hn : nextCandidate initialMsg isSequential (k + 1) cur s with
    | none => simp [birthdayLoop, hn] at h
    | some p =>
      obtain ⟨c, cur1, s1⟩ := p
      cases ht : truncateHash (H c) bits with
      | none => simp [birthdayLoop, hn, ht] at h
      | some t =>
        rw [birthdayLoop_step H initialMsg isSequential bits fuel k cur s seen c cur1 s1 t hn ht] at h
        by_cases hm : collides seen t c = true
        · rw [if_pos hm] at h
          injection h with h
          right
          omega
        · rw [if_neg hm] at h
          by_cases hcap : k + 1 > 5000000
          · rw [if_pos hcap] at h
            injection h with h
            left
            omega
          · rw [if_neg hcap] at h
            rcases ih (k + 1) cur1 s1 _ n (by omega) h with h1 | h1
            · exact Or.inl h1
            · right
              omega

/-- The loop never panics and never runs out of fuel when the mutator and the
truncation are defined and the fuel covers the attempts left up to the cap. -/
theorem birthdayLoop_total (H : GoString → GoString) (initialMsg : GoString)
    (isSequential : Bool) (bits : Int) (hb : -3 ≤ bits) (fuel : Nat) :
    ∀ (k : Nat) (cur : GoString) (s : RandSource) (seen : SeenMap),
      (isSequential = true ∨ cur ≠ []) → k ≤ 5000000 → 5000001 ≤ k + fuel →
      ∃ n, birthdayLoop H initialMsg isSequential bits fuel k cur s seen =
        Outcome.returned n := by
  induction fuel with
  | zero =>
    intro k cur s seen _ hk hf
    omega
  | succ fuel ih =>
    intro k cur s seen hc hk hf
    obtain ⟨c, cur1, s1, hn, hc1⟩ := nextCandidate_defined initialMsg isSequential (k + 1) cur s hc
    obtain ⟨t, ht⟩ := truncateHash_isSome (H c) bits hb
    rw [birthdayLoop_step H initialMsg isSequential bits fuel k cur s seen c cur1 s1 t hn ht]
    by_cases hm : collides seen t c = true
    · rw [if_pos hm]
      exact ⟨_, rfl⟩
    · rw [if_neg hm]
      by_cases hcap : k + 1 > 5000000
      · rw [if_pos hcap]
        exact ⟨_, rfl⟩
      · rw [if_neg hcap]
        exact ih (k + 1) cur1 s1 _ hc1 (by omega) (by omega)

/-- Extra fuel does not change a run that ended by itself. -/
theorem birthdayLoop_fuel_add (H : GoString → GoString) (initialMsg : GoString)
    (isSequential : Bool) (bits : Int) (extra fuel : Nat) :
    ∀ (k : Nat) (cur : GoString) (s : RandSource) (seen : SeenMap),
      birthdayLoop H initialMsg isSequential bits fuel k cur s seen ≠ Outcome.outOfFuel →
      birthdayLoop H initialMsg isSequential bits (fuel + extra) k cur s seen =
        birthdayLoop H initialMsg isSequential bits fuel k cur s seen := by
  induction fuel with
  | zero =>
    intro k cur s seen h
    exact absurd rfl h
  | succ fuel ih =>
    intro k cur s seen h
    have hf : fuel + 1 + extra = (fuel + extra) + 1 := by omega
    rw [hf]
    cases hn : nextCandidate initialMsg isSequential (k + 1) cur s with
    | none => simp [birthdayLoop, hn]
    | some p =>
      obtain ⟨c, cur1, s1⟩ := p
      cases ht : truncateHash (H c) bits with
      | none => simp [birthdayLoop, hn, ht]
      | some t =>
        rw [birthdayLoop_step H initialMsg isSequential bits fuel k cur s seen c cur1 s1 t hn ht] at h
        rw [birthdayLoop_step H initialMsg isSequential bits fuel k cur s seen c cur1 s1 t hn ht,
          birthdayLoop_step H initialMsg isSequential bits (fuel + extra) k cur s seen c cur1 s1 t hn ht]
        by_cases hm : collides seen t c = true
        · simp [hm]
        · rw [if_neg hm] at h ⊢
          rw [if_neg hm]
          by_cases hcap : k + 1 > 5000000
          · simp [hcap]
          · rw [if_neg hcap] at h ⊢
            rw [if_neg hcap]
            exact ih (k + 1) cur1 s1 _ h

/-- The map invariant holds for the empty map before the first attempt. -/
theorem SeenInv_init (H : GoString → GoString) (initialMsg : GoString) (isSequential : Bool)
    (src : RandSource) (bits : Int) :
    SeenInv H initialMsg isSequential src bits 0 (fun _ => none) := by
  constructor
  · intro t e h
    cases h
  · intro j c t h1 h2
    omega

/-- Storing the candidate of attempt `k + 1` keeps the map invariant. -/
theorem SeenInv_update (H : GoString → GoString) (initialMsg : GoString) (isSequential : Bool)
    (src : RandSource) (bits : Int) (k : Nat) (seen : SeenMap) (c t : GoString)
    (hinv : SeenInv H initialMsg isSequential src bits k seen)
    (hc : candidate initialMsg isSequential src (k + 1) = some c)
    (ht : truncateHash (H c) bits = some t) :
    SeenInv H initialMsg isSequential src bits (k + 1)
      (Function.update seen t (some ⟨c, H c⟩)) := by
  obtain ⟨h1, h2⟩ := hinv
  constructor
  · intro t1 e he
    by_cases htt : t1 = t
    · subst htt
      rw [Function.update_same] at he
      cases he
      exact ⟨k + 1, by omega, by omega, hc, ht, rfl⟩
    · rw [Function.update_noteq htt] at he
      obtain ⟨j, hj1, hj2, hcj, htj, hf⟩ := h1 t1 e he
      exact ⟨j, hj1, by omega, hcj, htj, hf⟩
  · intro j cj tj hj1 hj2 hcj htj
    by_cases htt : tj = t
    · subst htt
      exact ⟨_, Function.update_same _ _ _⟩
    · rw [Function.update_noteq htt]
      by_cases hjk : j = k + 1
      · subst hjk
        rw [hc] at hcj
        cases hcj
        rw [ht] at htj
        cases htj
        exact absurd rfl htt
      · exact h2 j cj tj hj1 (by omega) hcj htj

/-- Soundness of the birthday loop: a returned count is an attempt at which a
collision with an earlier candidate occurs. -/
theorem birthdayLoop_sound (H : GoString → GoString) (initialMsg : GoString)
    (isSequential : Bool) (src : RandSource) (bits : Int) (fuel : Nat) :
    ∀ (k : Nat) (c0 cur : GoString) (s : RandSource) (seen : SeenMap) (n : Int),
      walk initialMsg isSequential src k = some (c0, cur, s) →
      SeenInv H initialMsg isSequential src bits k seen →
      birthdayLoop H initialMsg isSequential bits fuel k cur s seen = Outcome.returned n →
      n ≠ -1 →
      ∃ r : Nat, n = (r : Int) ∧ k < r ∧
        collisionAt H initialMsg isSequential src bits r := by
  induction fuel with
  | zero =>
    intro k c0 cur s seen n _ _ h
    simp [birthdayLoop] at h
  | succ fuel ih =>
    intro k c0 cur s seen n hw hinv h hne
    cases hn : nextCandidate initialMsg isSequential (k + 1) cur s with
    | none => simp [birthdayLoop, hn] at h
    | some p =>
      obtain ⟨c, cur1, s1⟩ := p
      obtain ⟨hw1, hc1⟩ := candidate_succ initialMsg isSequential src k c0 cur s c cur1 s1 hw hn
      cases ht : truncateHash (H c) bits with
      | none => simp [birthdayLoop, hn, ht] at h
      | some t =>
        rw [birthdayLoop_step H initialMsg isSequential bits fuel k cur s seen c cur1 s1 t hn ht] at h
        by_cases hm : collides seen t c = true
        · rw [if_pos hm] at h
          injection h with h
          obtain ⟨e, he, hdiff⟩ := (collides_eq_true_iff seen t c).mp hm
          obtain ⟨j, hj1, hj2, hcj, htj, _⟩ := hinv.1 t e he
          exact ⟨k + 1, h.symm, by omega,
            ⟨j, c, e.message, t, hj1, by omega, hc1, hcj, fun hh => hdiff hh.symm, ht, htj⟩⟩
        · rw [if_neg hm] at h
          by_cases hcap : k + 1 > 5000000
          · rw [if_pos hcap] at h
            injection h with h
            exact absurd h.symm hne
          · rw [if_neg hcap] at h
            obtain ⟨r, hr, hkr, hcol⟩ := ih (k + 1) c cur1 s1 _ n hw1
              (SeenInv_update H initialMsg isSequential src bits k seen c t hinv hc1 ht) h hne
            exact ⟨r, hr, by omega, hcol⟩

/-- Completeness of the birthday loop: attempts without a collision are passed
over, up to the cap, and the map invariant is kept. -/
theorem birthdayLoop_skip (H : GoString → GoString) (initialMsg : GoString)
    (isSequential : Bool) (src : RandSource) (bits : Int) (n : Nat) :
    ∀ (fuel k : Nat) (c0 cur : GoString) (s : RandSource) (seen : SeenMap),
      walk initialMsg isSequential src k = some (c0, cur, s) →
      SeenInv H initialMsg isSequential src bits k seen →
      k + n ≤ 5000000 →
      (∀ j, k < j → j ≤ k + n → definedAt H initialMsg isSequential src bits j ∧
        ¬ collisionAt H initialMsg isSequential src bits j) →
      ∃ c1 cur1 s1 seen1, walk initialMsg isSequential src (k + n) = some (c1, cur1, s1) ∧
        SeenInv H initialMsg isSequential src bits (k + n) seen1 ∧
        birthdayLoop H initialMsg isSequential bits (fuel + n) k cur s seen =
          birthdayLoop H initialMsg isSequential bits fuel (k + n) cur1 s1 seen1 := by
  induction n with
  | zero =>
    intro fuel k c0 cur s seen hw hinv _ _
    exact ⟨c0, cur, s, seen, hw, hinv, rfl⟩
  | succ n ih =>
    intro fuel k c0 cur s seen hw hinv hcap hstep
    obtain ⟨⟨c, t, hc, ht⟩, hnocol⟩ := hstep (k + 1) (by omega) (by omega)
    obtain ⟨cur1, s1, hn⟩ :=
      nextCandidate_of_candidate initialMsg isSequential src k c0 cur s c hw hc
    obtain ⟨hw1, _⟩ := candidate_succ initialMsg isSequential src k c0 cur s c cur1 s1 hw hn
    have hm : ¬ collides seen t c = true := by
      intro hm
      obtain ⟨e, he, hdiff⟩ := (collides_eq_true_iff seen t c).mp hm
      obtain ⟨j, hj1, hj2, hcj, htj, _⟩ := hinv.1 t e he
      exact hnocol ⟨j, c, e.message, t, hj1, by omega, hc, hcj, fun hh => hdiff hh.symm, ht, htj⟩
    obtain ⟨c2, cur2, s2, seen2, hw2, hinv2, heq⟩ := ih fuel (k + 1) c cur1 s1
      (Function.update seen t (some ⟨c, H c⟩)) hw1
      (SeenInv_update H initialMsg isSequential src bits k seen c t hinv hc ht) (by omega)
      (fun j h1 h2 => hstep j (by omega) (by omega))
    have e1 : k + (n + 1) = k + 1 + n := by omega
    have e2 : fuel + (n + 1) = (fuel + n) + 1 := by omega
    refine ⟨c2, cur2, s2, seen2, by rw [e1]; exact hw2, by rw [e1]; exact hinv2, ?_⟩
    rw [e1, e2,
      birthdayLoop_step H initialMsg isSequential bits (fuel + n) k cur s seen c cur1 s1 t hn ht,
      if_neg hm, if_neg (by omega)]
    exact heq

/-- The first collision is reported: if attempt `k + 1` collides with an
earlier candidate and no earlier attempt does, the loop returns `k + 1`. -/
theorem birthdayLoop_hit (H : GoString → GoString) (initialMsg : GoString)
    (isSequential : Bool) (src : RandSource) (bits : Int)
    (fuel k : Nat) (c0 cur : GoString) (s : RandSource) (seen : SeenMap)
    (hw : walk initialMsg isSequential src k = some (c0, cur, s))
    (hinv : SeenInv H initialMsg isSequential src bits k seen)
    (hcol : collisionAt H initialMsg isSequential src bits (k + 1))
    (hfirst : ∀ j, j ≤ k → ¬ collisionAt H initialMsg isSequential src bits j) :
    birthdayLoop H initialMsg isSequential bits (fuel + 1) k cur s seen =
      Outcome.returned ((k + 1 : Nat) : Int) := by
  obtain ⟨j, c, cj, t, hj1, hj2, hc, hcj, hdiff, ht, htj⟩ := hcol
  obtain ⟨cur1, s1, hn⟩ :=
    nextCandidate_of_candidate initialMsg isSequential src k c0 cur s c hw hc
  obtain ⟨e, he⟩ := hinv.2 j cj t hj1 (by omega) hcj htj
  obtain ⟨i, hi1, hi2, hci, hti, _⟩ := hinv.1 t e he
  have hne : e.message ≠ c := by
    intro heq
    rw [heq] at hci hti
    rcases Nat.lt_trichotomy i j with hlt | heq2 | hgt
    · exact hfirst j (by omega) ⟨i, cj, c, t, hi1, hlt, hcj, hci, fun hh => hdiff hh.symm, htj, hti⟩
    · subst heq2
      rw [hci] at hcj
      cases hcj
      exact hdiff rfl
    · exact hfirst i hi2 ⟨j, c, cj, t, hj1, hgt, hci, hcj, hdiff, hti, htj⟩
  have hm : collides seen t c = true := (collides_eq_true_iff seen t c).mpr ⟨e, he, hne⟩
  rw [birthdayLoop_step H initialMsg isSequential bits fuel k cur s seen c cur1 s1 t hn ht,
    if_pos hm]

/-- The birthday search returns the first attempt at which a collision occurs,
when there is one among the first 5000001 attempts. -/
theorem BirthdayAttack_first_collision (H : GoString → GoString) (src : RandSource)
    (initialMsg : GoString) (isSequential : Bool) (bits : Int) (r : Nat)
    (h1 : 1 ≤ r) (hr : r ≤ 5000001)
    (hdef : ∀ j, 1 ≤ j → j < r → definedAt H initialMsg isSequential src bits j)
    (hcol : collisionAt H initialMsg isSequential src bits r)
    (hfirst : ∀ j, j < r → ¬ collisionAt H initialMsg isSequential src bits j) :
    BirthdayAttack H src initialMsg isSequential bits = Outcome.returned (r : Int) := by
  unfold BirthdayAttack
  have hf : searchFuel = (5000001 - r) + 1 + (r - 1) := by
    unfold searchFuel
    omega
  rw [hf]
  obtain ⟨c1, cur1, s1, seen1, hw, hinv, heq⟩ :=
    birthdayLoop_skip H initialMsg isSequential src bits (r - 1) ((5000001 - r) + 1) 0
      initialMsg initialMsg src (fun _ => none) rfl
      (SeenInv_init H initialMsg isSequential src bits) (by omega)
      (fun j hj1 hj2 => ⟨hdef j (by omega) (by omega), hfirst j (by omega)⟩)
  rw [heq]
  have hk : 0 + (r - 1) + 1 = r := by omega
  have hcol1 : collisionAt H initialMsg isSequential src bits (0 + (r - 1) + 1) := by
    rw [hk]; exact hcol
  rw [birthdayLoop_hit H initialMsg isSequential src bits (5000001 - r) (0 + (r - 1))
    c1 cur1 s1 seen1 hw hinv hcol1 (fun j hj => hfirst j (by omega)), hk]

/-! ### Claims about the birthday search -/

/-- The birthday search of "TEST" at 4 bits, sequential mode. -/
theorem birthday_TEST_4 :
    BirthdayAttack calculateHash (fun _ => 0) [84, 69, 83, 84] true 4 =
      Outcome.returned 6 := by
  decide!

/-- C3: whenever `BirthdayAttack` returns `n ≠ -1` (any digest function, initial
message, strategy, draws and bit-width), the `n`-th candidate and some earlier
candidate `j < n` are two different messages with equal truncated digests; and
an iteration whose candidate is identical to the message stored under its
truncated digest reports nothing: it overwrites the entry and goes on. -/
theorem BirthdayAttack_reports_true_collision (H : GoString → GoString) (src : RandSource)
    (initialMsg : GoString) (isSequential : Bool) (bits : Int) :
    (∀ n : Int, BirthdayAttack H src initialMsg isSequential bits = Outcome.returned n →
      n ≠ -1 →
      ∃ (k j : Nat) (cn cj t : GoString), n = (k : Int) ∧ 1 ≤ j ∧ j < k ∧
        candidate initialMsg isSequential src k = some cn ∧
        candidate initialMsg isSequential src j = some cj ∧ cn ≠ cj ∧
        truncateHash (H cn) bits = some t ∧ truncateHash (H cj) bits = some t) ∧
    (∀ (fuel k : Nat) (cur : GoString) (s : RandSource) (seen : SeenMap)
        (c cur1 : GoString) (s1 : RandSource) (t : GoString) (e : HashEntry),
      nextCandidate initialMsg isSequential (k + 1) cur s = some (c, cur1, s1) →
      truncateHash (H c) bits = some t → seen t = some e → e.message = c →
      birthdayLoop H initialMsg isSequential bits (fuel + 1) k cur s seen =
        if k + 1 > 5000000 then Outcome.returned (-1)
        else birthdayLoop H initialMsg isSequential bits fuel (k + 1) cur1 s1
          (Function.update seen t (some ⟨c, H c⟩))) := by
  constructor
  · intro n hret hn
    unfold BirthdayAttack at hret
    obtain ⟨r, hr, _, j, cn, cj, t, hj1, hj2, hcn, hcj, hdiff, htn, htj⟩ :=
      birthdayLoop_sound H initialMsg isSequential src bits searchFuel 0 initialMsg initialMsg
        src (fun _ => none) n rfl (SeenInv_init H initialMsg isSequential src bits) hret hn
    exact ⟨r, j, cn, cj, t, hr, hj1, hj2, hcn, hcj, hdiff, htn, htj⟩
  · intro fuel k cur s seen c cur1 s1 t e hn ht he hsame
    have hm : ¬ collides seen t c = true := by
      intro hm
      obtain ⟨e1, he1, hdiff⟩ := (collides_eq_true_iff seen t c).mp hm
      rw [he] at he1
      cases he1
      exact hdiff hsame
    rw [birthdayLoop_step H initialMsg isSequential bits fuel k cur s seen c cur1 s1 t hn ht,
      if_neg hm]

/-- C3 at a concrete input: the sequential search of "TEST" at 4 bits returns 6,
so candidate 6 collides with an earlier candidate. -/
theorem BirthdayAttack_reports_true_collision_witness :
    ∃ (k j : Nat) (cn cj t : GoString), (6 : Int) = (k : Int) ∧ 1 ≤ j ∧ j < k ∧
      candidate [84, 69, 83, 84] true (fun _ => 0) k = some cn ∧
      candidate [84, 69, 83, 84] true (fun _ => 0) j = some cj ∧ cn ≠ cj ∧
      truncateHash (calculateHash cn) 4 = some t ∧ truncateHash (calculateHash cj) 4 = some t :=
  (BirthdayAttack_reports_true_collision calculateHash (fun _ => 0) [84, 69, 83, 84] true 4).1
    6 birthday_TEST_4 (by decide)

/-- Each of the first 5000000 candidates of the cycle is "b" or "c", with
last digest nibbles `8` and `4`. -/
theorem cycle_candidate_cases (j : Nat) (h1 : 1 ≤ j) (hj : j ≤ 5000000) (c : GoString)
    (hc : candidate [97] false cycleDraws j = some c) :
    (c = [98] ∧ truncateHash (calculateHash c) 4 = some [56]) ∨
      (c = [99] ∧ truncateHash (calculateHash c) 4 = some [52]) := by
  rw [cycle_candidate j h1 hj] at hc
  by_cases hodd : j % 2 = 1
  · rw [if_pos hodd] at hc
    cases hc
    exact Or.inl ⟨rfl, truncate4_b⟩
  · rw [if_neg hodd] at hc
    cases hc
    exact Or.inr ⟨rfl, truncate4_c⟩

/-- No collision occurs among the first 5000000 candidates of the cycle. -/
theorem cycle_no_collision (j : Nat) (hj : j ≤ 5000000) :
    ¬ collisionAt calculateHash [97] false cycleDraws 4 j := by
  rintro ⟨i, cn, cj, t, hi1, hi2, hcn, hcj, hdiff, htn, htj⟩
  rcases cycle_candidate_cases j (by omega) hj cn hcn with ⟨h1, h2⟩ | ⟨h1, h2⟩ <;>
    rcases cycle_candidate_cases i hi1 (by omega) cj hcj with ⟨h3, h4⟩ | ⟨h3, h4⟩
  · exact hdiff (h1.trans h3.symm)
  · rw [htn] at h2
    rw [htj] at h4
    cases h2
    cases h4
  · rw [htn] at h2
    rw [htj] at h4
    cases h2
    cases h4
  · exact hdiff (h1.trans h3.symm)

/-- The birthday search on the cycling draws returns 5000001. -/
theorem birthday_cycle :
    BirthdayAttack calculateHash cycleDraws [97] false 4 = Outcome.returned 5000001 := by
  have h := BirthdayAttack_first_collision calculateHash cycleDraws [97] false 4 5000001
    (by omega) (by omega)
    (fun j h1 h2 => by
      by_cases hodd : j % 2 = 1
      · exact ⟨[98], [56], by rw [cycle_candidate j h1 (by omega), if_pos hodd], truncate4_b⟩
      · exact ⟨[99], [52], by rw [cycle_candidate j h1 (by omega), if_neg hodd], truncate4_c⟩)
    ⟨1, [97], [98], [56], by omega, by omega, cycle_candidate_last,
      by rw [cycle_candidate 1 (by omega) (by omega)]; rfl, by decide, truncate4_a, truncate4_b⟩
    (fun j hj => cycle_no_collision j (by omega))
  exact h

theorem nextCandidate_nil (initialMsg : GoString) (k : Nat) (s : RandSource) :
    nextCandidate initialMsg false k [] s = none := by
  simp [nextCandidate, generateRandomMessage_nil]

theorem preimageLoop_mutator_panic (H : GoString → GoString) (initialMsg : GoString)
    (isSequential : Bool) (bits : Int) (target : GoString) (fuel k : Nat)
    (cur : GoString) (s : RandSource)
    (hn : nextCandidate initialMsg isSequential (k + 1) cur s = none) :
    preimageLoop H initialMsg isSequential bits target (fuel + 1) k cur s =
      Outcome.panicked := by
  simp only [preimageLoop, hn]

theorem birthdayLoop_mutator_panic (H : GoString → GoString) (initialMsg : GoString)
    (isSequential : Bool) (bits : Int) (fuel k : Nat)
    (cur : GoString) (s : RandSource) (seen : SeenMap)
    (hn : nextCandidate initialMsg isSequential (k + 1) cur s = none) :
    birthdayLoop H initialMsg isSequential bits (fuel + 1) k cur s seen =
      Outcome.panicked := by
  simp only [birthdayLoop, hn]

/-- Random mode on the empty message: the first call of the mutator panics. -/
theorem attacks_panic_on_empty (H : GoString → GoString) (src : RandSource) (bits : Int)
    (hb : -3 ≤ bits) :
    PreimageAttack H src [] false bits = Outcome.panicked ∧
      BirthdayAttack H src [] false bits = Outcome.panicked := by
  have hf : searchFuel = 5000000 + 1 := rfl
  constructor
  · unfold PreimageAttack
    obtain ⟨target, ht⟩ := truncateHash_isSome (H []) bits hb
    simp only [ht]
    rw [hf]
    exact preimageLoop_mutator_panic H [] false bits target 5000000 0 [] src
      (nextCandidate_nil [] 1 src)
  · unfold BirthdayAttack
    rw [hf]
    exact birthdayLoop_mutator_panic H [] false bits 5000000 0 [] src _
      (nextCandidate_nil [] 1 src)

/-- C4 (counterexample): with SHA-1, the one-byte message "a", random mode, 4
bits and the cycling draws, no two distinct messages among the first 5000000
candidates share a truncated digest, yet the search does not return -1: candidate
5000001 ("a") collides with the stored "b" and 5000001 is returned, a successful
result above 5000000. On the empty message in random mode the search returns
nothing at all: it panics. -/
theorem BirthdayAttack_returns_5000001 :
    (∀ (i j : Nat) (ci cj : GoString), 1 ≤ i → i ≤ 5000000 → 1 ≤ j → j ≤ 5000000 →
      candidate [97] false cycleDraws i = some ci →
      candidate [97] false cycleDraws j = some cj → ci ≠ cj →
      truncateHash (calculateHash ci) 4 ≠ truncateHash (calculateHash cj) 4) ∧
    BirthdayAttack calculateHash cycleDraws [97] false 4 = Outcome.returned 5000001 ∧
    BirthdayAttack calculateHash cycleDraws [] false 4 = Outcome.panicked := by
  refine ⟨?_, birthday_cycle, (attacks_panic_on_empty calculateHash cycleDraws 4 (by decide)).2⟩
  intro i j ci cj hi1 hi2 hj1 hj2 hci hcj hdiff heq
  rcases cycle_candidate_cases i hi1 hi2 ci hci with ⟨h1, h2⟩ | ⟨h1, h2⟩ <;>
    rcases cycle_candidate_cases j hj1 hj2 cj hcj with ⟨h3, h4⟩ | ⟨h3, h4⟩
  · exact hdiff (h1.trans h3.symm)
  · rw [h2, h4] at heq
    cases heq
  · rw [h2, h4] at heq
    cases heq
  · exact hdiff (h1.trans h3.symm)

/-- C4 (amended): for every initial message in sequential mode and every
non-empty initial message in random mode, any draws and any bit-width
`bits ≥ 0`, if no two distinct messages among the first 5000001 candidates share
a truncated digest then `BirthdayAttack` returns -1, and every successful result
is an attempt count of at most 5000001. -/
theorem BirthdayAttack_cap (H : GoString → GoString) (src : RandSource)
    (initialMsg : GoString) (isSequential : Bool) (bits : Int)
    (hm : isSequential = true ∨ initialMsg ≠ []) (hb : 0 ≤ bits) :
    ((∀ (i j : Nat) (ci cj : GoString), 1 ≤ i → i ≤ 5000001 → 1 ≤ j → j ≤ 5000001 →
        candidate initialMsg isSequential src i = some ci →
        candidate initialMsg isSequential src j = some cj → ci ≠ cj →
        truncateHash (H ci) bits ≠ truncateHash (H cj) bits) →
      BirthdayAttack H src initialMsg isSequential bits = Outcome.returned (-1)) ∧
    (∀ n : Int, BirthdayAttack H src initialMsg isSequential bits = Outcome.returned n →
      n ≠ -1 → 1 ≤ n ∧ n ≤ 5000001) := by
  constructor
  · intro hnc
    obtain ⟨n, hret⟩ := birthdayLoop_total H initialMsg isSequential bits (by omega) searchFuel
      0 initialMsg src (fun _ => none) hm (by omega) (by unfold searchFuel; omega)
    unfold BirthdayAttack
    rw [hret]
    by_cases hn : n = -1
    · rw [hn]
    · exfalso
      obtain ⟨r, hr, _, j, cn, cj, t, hj1, hj2, hcn, hcj, hdiff, htn, htj⟩ :=
        birthdayLoop_sound H initialMsg isSequential src bits searchFuel 0 initialMsg initialMsg
          src (fun _ => none) n rfl (SeenInv_init H initialMsg isSequential src bits) hret hn
      have hrange := birthdayLoop_range H initialMsg isSequential bits searchFuel 0 initialMsg
        src (fun _ => none) n (by omega) hret
      have hr2 : r ≤ 5000001 := by omega
      exact hnc r j cn cj (by omega) hr2 hj1 (by omega) hcn hcj hdiff (by rw [htn, htj])
  · intro n hret hn
    unfold BirthdayAttack at hret
    have hrange := birthdayLoop_range H initialMsg isSequential bits searchFuel 0 initialMsg
      src (fun _ => none) n (by omega) hret
    omega

/-- C4 (amended) at a concrete input: the sequential search of "TEST" at 4 bits. -/
theorem BirthdayAttack_cap_witness :
    ((true = true ∨ ([84, 69, 83, 84] : GoString) ≠ []) ∧ (0 : Int) ≤ 4) ∧
    (((∀ (i j : Nat) (ci cj : GoString), 1 ≤ i → i ≤ 5000001 → 1 ≤ j → j ≤ 5000001 →
        candidate [84, 69, 83, 84] true (fun _ => 0) i = some ci →
        candidate [84, 69, 83, 84] true (fun _ => 0) j = some cj → ci ≠ cj →
        truncateHash (calculateHash ci) 4 ≠ truncateHash (calculateHash cj) 4) →
      BirthdayAttack calculateHash (fun _ => 0) [84, 69, 83, 84] true 4 =
        Outcome.returned (-1)) ∧
    (∀ n : Int, BirthdayAttack calculateHash (fun _ => 0) [84, 69, 83, 84] true 4 =
        Outcome.returned n → n ≠ -1 → 1 ≤ n ∧ n ≤ 5000001)) :=
  ⟨⟨Or.inl rfl, by decide⟩,
   BirthdayAttack_cap calculateHash (fun _ => 0) [84, 69, 83, 84] true 4 (Or.inl rfl)
     (by decide)⟩

/-! ### Claims about failure modes -/

/-- C6 (counterexample): on the empty initial message in random mode, with
SHA-1, 16 and 32 bits, both searches end in a run-time panic of the mutator
(`rand.Intn(0)`) instead of completing with a result. -/
theorem attacks_panic_on_empty_message :
    PreimageAttack calculateHash (fun _ => 0) [] false 16 = Outcome.panicked ∧
      BirthdayAttack calculateHash (fun _ => 0) [] false 32 = Outcome.panicked :=
  ⟨(attacks_panic_on_empty calculateHash (fun _ => 0) 16 (by decide)).1,
   (attacks_panic_on_empty calculateHash (fun _ => 0) 32 (by decide)).2⟩

/-- C6 (amended): for every initial message in sequential mode and every
non-empty initial message in random mode, any draws and every bit-width
`bits ≥ 0`, `PreimageAttack` and `BirthdayAttack` complete with a result (an
attempt count or -1): no panic in the mutator or in truncation, and no
dependence on the fuel of the model. -/
theorem attacks_complete (H : GoString → GoString) (src : RandSource)
    (initialMsg : GoString) (isSequential : Bool) (bits : Int)
    (hm : isSequential = true ∨ initialMsg ≠ []) (hb : 0 ≤ bits) :
    (∃ n : Int, PreimageAttack H src initialMsg isSequential bits = Outcome.returned n ∧
      (n = -1 ∨ (1 ≤ n ∧ n ≤ 5000001))) ∧
    (∃ n : Int, BirthdayAttack H src initialMsg isSequential bits = Outcome.returned n ∧
      (n = -1 ∨ (1 ≤ n ∧ n ≤ 5000001))) ∧
    (∀ (extra : Nat) (target : GoString), truncateHash (H initialMsg) bits = some target →
      preimageLoop H initialMsg isSequential bits target (searchFuel + extra) 0 initialMsg src =
        PreimageAttack H src initialMsg isSequential bits) ∧
    (∀ extra : Nat,
      birthdayLoop H initialMsg isSequential bits (searchFuel + extra) 0 initialMsg src
        (fun _ => none) = BirthdayAttack H src initialMsg isSequential bits) := by
  obtain ⟨target, ht⟩ := truncateHash_isSome (H initialMsg) bits (by omega)
  obtain ⟨n1, h1⟩ := preimageLoop_total H initialMsg isSequential bits target (by omega)
    searchFuel 0 initialMsg src hm (by omega) (by unfold searchFuel; omega)
  obtain ⟨n2, h2⟩ := birthdayLoop_total H initialMsg isSequential bits (by omega) searchFuel
    0 initialMsg src (fun _ => none) hm (by omega) (by unfold searchFuel; omega)
  have hP : PreimageAttack H src initialMsg isSequential bits = Outcome.returned n1 := by
    unfold PreimageAttack
    simp only [ht]
    exact h1
  refine ⟨⟨n1, hP, ?_⟩, ⟨n2, h2, ?_⟩, ?_, ?_⟩
  · rcases preimageLoop_range H initialMsg isSequential bits target searchFuel 0 initialMsg src
      n1 (by omega) h1 with h | h
    · exact Or.inl h
    · right; omega
  · rcases birthdayLoop_range H initialMsg isSequential bits searchFuel 0 initialMsg src
      (fun _ => none) n2 (by omega) h2 with h | h
    · exact Or.inl h
    · right; omega
  · intro extra target1 ht1
    rw [ht] at ht1
    cases ht1
    rw [hP, ← h1]
    exact preimageLoop_fuel_add H initialMsg isSequential bits target extra searchFuel 0
      initialMsg src (by rw [h1]; intro hh; cases hh)
  · intro extra
    unfold BirthdayAttack
    exact birthdayLoop_fuel_add H initialMsg isSequential bits extra searchFuel 0
      initialMsg src (fun _ => none) (by rw [h2]; intro hh; cases hh)

/-- C6 (amended) at a concrete input: the one-byte message "a" in random mode at
16 bits. -/
theorem attacks_complete_witness :
    ((false = true ∨ ([97] : GoString) ≠ []) ∧ (0 : Int) ≤ 16) ∧
    ((∃ n : Int, PreimageAttack calculateHash cycleDraws [97] false 16 = Outcome.returned n ∧
      (n = -1 ∨ (1 ≤ n ∧ n ≤ 5000001))) ∧
    (∃ n : Int, BirthdayAttack calculateHash cycleDraws [97] false 16 = Outcome.returned n ∧
      (n = -1 ∨ (1 ≤ n ∧ n ≤ 5000001))) ∧
    (∀ (extra : Nat) (target : GoString),
      truncateHash (calculateHash [97]) 16 = some target →
      preimageLoop calculateHash [97] false 16 target (searchFuel + extra) 0 [97] cycleDraws =
        PreimageAttack calculateHash cycleDraws [97] false 16) ∧
    (∀ extra : Nat,
      birthdayLoop calculateHash [97] false 16 (searchFuel + extra) 0 [97] cycleDraws
        (fun _ => none) = BirthdayAttack calculateHash cycleDraws [97] false 16)) :=
  ⟨⟨Or.inr (by decide), by decide⟩,
   attacks_complete calculateHash cycleDraws [97] false 16 (Or.inr (by decide)) (by decide)⟩

/-! ### Fuel -/

/-- With the cap still ahead and fuel for the attempts left, the preimage loop
does not run out of fuel, whether it returns or panics. -/
theorem preimageLoop_ne_outOfFuel (H : GoString → GoString) (initialMsg : GoString)
    (isSequential : Bool) (bits : Int) (target : GoString) (fuel : Nat) :
    ∀ (k : Nat) (cur : GoString) (s : RandSource), k ≤ 5000000 → 5000001 ≤ k + fuel →
      preimageLoop H initialMsg isSequential bits target fuel k cur s ≠ Outcome.outOfFuel := by
  induction fuel with
  | zero =>
    intro k cur s hk hf
    omega
  | succ fuel ih =>
    intro k cur s hk hf
    cases hn : nextCandidate initialMsg isSequential (k + 1) cur s with
    | none =>
      rw [preimageLoop_mutator_panic H initialMsg isSequential bits target fuel k cur s hn]
      intro h; cases h
    | some p =>
      obtain ⟨c, cur1, s1⟩ := p
      cases ht : truncateHash (H c) bits with
      | none =>
        simp only [preimageLoop, hn, ht]
        intro h; cases h
      | some t =>
        rw [preimageLoop_step H initialMsg isSequential bits target fuel k cur s c cur1 s1 t hn ht]
        by_cases hm : t = target
        · rw [if_pos hm]
          intro h; cases h
        · rw [if_neg hm]
          by_cases hcap : k + 1 > 5000000
          · rw [if_pos hcap]
            intro h; cases h
          · rw [if_neg hcap]
            exact ih (k + 1) cur1 s1 (by omega) (by omega)

/-- With the cap still ahead and fuel for the attempts left, the birthday loop
does not run out of fuel, whether it returns or panics. -/
theorem birthdayLoop_ne_outOfFuel (H : GoString → GoString) (initialMsg : GoString)
    (isSequential : Bool) (bits : Int) (fuel : Nat) :
    ∀ (k : Nat) (cur : GoString) (s : RandSource) (seen : SeenMap),
      k ≤ 5000000 → 5000001 ≤ k + fuel →
      birthdayLoop H initialMsg isSequential bits fuel k cur s seen ≠ Outcome.outOfFuel := by
  induction fuel with
  | zero =>
    intro k cur s seen hk hf
    omega
  | succ fuel ih =>
    intro k cur s seen hk hf
    cases hn : nextCandidate initialMsg isSequential (k + 1) cur s with
    | none =>
      rw [birthdayLoop_mutator_panic H initialMsg isSequential bits fuel k cur s seen hn]
      intro h; cases h
    | some p =>
      obtain ⟨c, cur1, s1⟩ := p
      cases ht : truncateHash (H c) bits with
      | none =>
        simp only [birthdayLoop, hn, ht]
        intro h; cases h
      | some t =>
        rw [birthdayLoop_step H initialMsg isSequential bits fuel k cur s seen c cur1 s1 t hn ht]
        by_cases hm : collides seen t c = true
        · rw [if_pos hm]
          intro h; cases h
        · rw [if_neg hm]
          by_cases hcap : k + 1 > 5000000
          · rw [if_pos hcap]
            intro h; cases h
          · rw [if_neg hcap]
            exact ih (k + 1) cur1 s1 _ (by omega) (by omega)

/-- Neither search ever runs out of fuel, on any input. -/
theorem attacks_ne_outOfFuel (H : GoString → GoString) (src : RandSource)
    (initialMsg : GoString) (isSequential : Bool) (bits : Int) :
    PreimageAttack H src initialMsg isSequential bits ≠ Outcome.outOfFuel ∧
      BirthdayAttack H src initialMsg isSequential bits ≠ Outcome.outOfFuel := by
  constructor
  · unfold PreimageAttack
    cases ht : truncateHash (H initialMsg) bits with
    | none =>
      intro h; cases h
    | some target =>
      exact preimageLoop_ne_outOfFuel H initialMsg isSequential bits target searchFuel 0
        initialMsg src (by omega) (by unfold searchFuel; omega)
  · unfold BirthdayAttack
    exact birthdayLoop_ne_outOfFuel H initialMsg isSequential bits searchFuel 0
      initialMsg src (fun _ => none) (by omega) (by unfold searchFuel; omega)

/-! ### Statistics -/

theorem F64.add_fin (R : Rounding) (a b : ℚ) :
    F64.add R (F64.fin a) (F64.fin b) = F64.fin (R.rnd (a + b)) := rfl

theorem F64.sub_fin (R : Rounding) (a b : ℚ) :
    F64.sub R (F64.fin a) (F64.fin b) = F64.fin (R.rnd (a - b)) := by
  simp [F64.sub, F64.neg, F64.add, sub_eq_add_neg]

theorem F64.pow2_fin (R : Rounding) (a : ℚ) :
    F64.pow2 R (F64.fin a) = F64.fin (R.rnd (a * a)) := rfl

theorem F64.div_fin (R : Rounding) (a b : ℚ) (hb : b ≠ 0) :
    F64.div R (F64.fin a) (F64.fin b) = F64.fin (R.rnd (a / b)) := by
  simp [F64.div, hb]

theorem F64.div_zero_zero (R : Rounding) :
    F64.div R (F64.fin 0) (F64.fin 0) = F64.nan := by
  simp [F64.div]

theorem rnd_zero (R : Rounding) : R.rnd 0 = 0 := by
  have h := R.rnd_int 0 (by decide)
  simpa using h

/-- Small integers are not changed by rounding. -/
theorem rnd_small (R : Rounding) (n : Int) (h : n.natAbs ≤ 1000) (q : ℚ) (hq : q = (n : ℚ)) :
    R.rnd q = q := by
  subst hq
  exact R.rnd_int n (le_trans h (by norm_num))

theorem rnd_one (R : Rounding) : R.rnd 1 = 1 :=
  rnd_small R 1 (by decide) 1 (by norm_num)

theorem calculateStatistics_nil (R : Rounding) :
    calculateStatistics R [] = (F64.fin 0, F64.fin 0) := by
  simp [calculateStatistics]

/-- On a single result the mean is that result and the variance is `0 / 0`. -/
theorem calculateStatistics_singleton (R : Rounding) (x : Int) :
    calculateStatistics R [x] = (F64.fin (R.rnd (x : ℚ)), F64.nan) := by
  have h1 : (1 : ℚ) ≠ 0 := by norm_num
  simp [calculateStatistics, toFloat64, F64.add_fin, F64.sub_fin, F64.pow2_fin,
    R.rnd_idem, rnd_zero, rnd_one, F64.div_fin, F64.div_zero_zero]

/-- Both loops keep their accumulator finite, whatever the rounding. -/
theorem foldl_sum_fin (R : Rounding) (l : List Int) :
    ∀ a : ℚ, ∃ q, l.foldl (fun sum r => F64.add R sum (toFloat64 R r)) (F64.fin a) =
      F64.fin q := by
  induction l with
  | nil => intro a; exact ⟨a, rfl⟩
  | cons x xs ih =>
    intro a
    rw [List.foldl_cons]
    exact ih _

theorem foldl_var_fin (R : Rounding) (m : ℚ) (l : List Int) :
    ∀ a : ℚ, ∃ q, l.foldl (fun varianceSum r => F64.add R varianceSum
        (F64.pow2 R (F64.sub R (toFloat64 R r) (F64.fin m)))) (F64.fin a) = F64.fin q := by
  induction l with
  | nil => intro a; exact ⟨a, rfl⟩
  | cons x xs ih =>
    intro a
    rw [List.foldl_cons]
    have h : F64.add R (F64.fin a) (F64.pow2 R (F64.sub R (toFloat64 R x) (F64.fin m))) =
        F64.fin (R.rnd (a + R.rnd (R.rnd (R.rnd (x : ℚ) - m) * R.rnd (R.rnd (x : ℚ) - m)))) := by
      rw [show toFloat64 R x = F64.fin (R.rnd (x : ℚ)) from rfl, F64.sub_fin, F64.pow2_fin,
        F64.add_fin]
    rw [h]
    exact ih _

theorem calculateStatistics_finite (R : Rounding) (results : List Int)
    (hn : 2 ≤ results.length) (hmax : results.length ≤ 2 ^ 53) :
    ∃ m v, calculateStatistics R results = (F64.fin m, F64.fin v) := by
  have h0 : results.length ≠ 0 := by omega
  have hr : R.rnd ((results.length : Int) : ℚ) = ((results.length : Int) : ℚ) :=
    R.rnd_int _ (by simpa using hmax)
  have hr1 : R.rnd (((results.length : Int) - 1 : Int) : ℚ) =
      (((results.length : Int) - 1 : Int) : ℚ) :=
    R.rnd_int _ (by omega)
  have hq : R.rnd ((results.length : Int) : ℚ) ≠ 0 := by
    rw [hr]
    have : (results.length : Int) ≠ 0 := by omega
    exact_mod_cast this
  have hq1 : R.rnd (((results.length : Int) - 1 : Int) : ℚ) ≠ 0 := by
    rw [hr1]
    have h : ((results.length : Int) - 1) ≠ 0 := by omega
    exact_mod_cast h
  obtain ⟨s, hs⟩ := foldl_sum_fin R results 0
  unfold calculateStatistics
  rw [if_neg h0]
  simp only [hs]
  rw [show toFloat64 R (results.length : Int) = F64.fin (R.rnd ((results.length : Int) : ℚ))
    from rfl, F64.div_fin _ _ _ hq]
  obtain ⟨v, hv⟩ := foldl_var_fin R (R.rnd (s / R.rnd ((results.length : Int) : ℚ))) results 0
  simp only [hv]
  rw [show toFloat64 R ((results.length : Int) - 1) =
    F64.fin (R.rnd (((results.length : Int) - 1 : Int) : ℚ)) from rfl, F64.div_fin _ _ _ hq1]
  exact ⟨_, _, rfl⟩

/-! ### Claims about the statistics -/

/-- C11 (the code at the failing input): for every single-element collection
`[x]` and every rounding, `calculateStatistics` returns the variance
`0.0 / 0.0`, which is NaN and not 0; only the empty collection is guarded. -/
theorem calculateStatistics_single_variance_nan (R : Rounding) (x : Int) :
    (calculateStatistics R [x]).2 = F64.nan ∧
      (calculateStatistics R [x]).2 ≠ F64.fin 0 ∧
      (calculateStatistics R [x]).1 = F64.fin (R.rnd (x : ℚ)) := by
  rw [calculateStatistics_singleton]
  refine ⟨rfl, ?_, rfl⟩
  intro h
  cases h

/-- C13: for the empty collection `calculateStatistics` returns mean 0 and
variance 0. -/
theorem calculateStatistics_empty (R : Rounding) :
    calculateStatistics R [] = (F64.fin 0, F64.fin 0) :=
  calculateStatistics_nil R

/-! ### Claims about the mutator -/

/-- The mutator result on a non-empty message, by the drawn index and shift. -/
theorem generateRandomMessage_eq_set (msg : GoString) (src : RandSource) (idx : Nat)
    (hidx : idx < msg.length) (h0 : src 0 = idx) :
    generateRandomMessage msg src =
      some (msg.set idx (mutateByte (msg.get ⟨idx, hidx⟩) (src 1 % 255)),
        fun i => src (i + 2)) := by
  have hmod : src 0 % msg.length = idx := by rw [h0]; exact Nat.mod_eq_of_lt hidx
  have hlt : src 0 % msg.length < msg.length := by rw [hmod]; exact hidx
  rw [generateRandomMessage_of_lt msg src hlt]
  simp only [hmod]

/-- Replacing one byte by a different one gives a different message. -/
theorem set_ne_self (msg : GoString) (idx : Nat) (hidx : idx < msg.length) (b : Byte)
    (hb : b ≠ msg.get ⟨idx, hidx⟩) : msg.set idx b ≠ msg := by
  intro h
  have h1 : (msg.set idx b)[idx]? = msg[idx]? := by rw [h]
  rw [List.getElem?_set_self hidx, List.getElem?_eq_getElem hidx] at h1
  injection h1 with h1
  exact hb h1

/-- C14: for every non-empty message, every index `idx < len(message)` and
every draw `r` in `[0, 255)`, `generateRandomMessage` returns a message of the
same length that differs from the input at index `idx` and at no other index,
so the result is a different message from its input. -/
theorem generateRandomMessage_changes_one_byte (msg : GoString) (src : RandSource)
    (idx r : Nat) (hne : msg ≠ []) (hidx : idx < msg.length) (hr : r < 255)
    (h0 : src 0 = idx) (h1 : src 1 = r) :
    ∃ out s, generateRandomMessage msg src = some (out, s) ∧
      out.length = msg.length ∧
      out[idx]? = some (mutateByte (msg.get ⟨idx, hidx⟩) r) ∧
      out[idx]? ≠ msg[idx]? ∧
      (∀ i, i ≠ idx → out[i]? = msg[i]?) ∧
      out ≠ msg := by
  have _ := hne
  have hmut : mutateByte (msg.get ⟨idx, hidx⟩) r ≠ msg.get ⟨idx, hidx⟩ :=
    mutateByte_ne_self _ r hr
  refine ⟨_, _, generateRandomMessage_eq_set msg src idx hidx h0, ?_, ?_, ?_, ?_, ?_⟩
  · simp
  · rw [h1, Nat.mod_eq_of_lt hr, List.getElem?_set_self hidx]
  · rw [h1, Nat.mod_eq_of_lt hr, List.getElem?_set_self hidx, List.getElem?_eq_getElem hidx]
    intro h
    injection h with h
    exact hmut h
  · intro i hi
    rw [List.getElem?_set_ne (fun h => hi h.symm)]
  · rw [h1, Nat.mod_eq_of_lt hr]
    exact set_ne_self msg idx hidx _ hmut

/-- C14 at a concrete input: the second byte of "abc" shifted by 5 + 1. -/
theorem generateRandomMessage_changes_one_byte_witness :
    ∃ out s, generateRandomMessage [97, 98, 99] (fun i => if i = 0 then 1 else 5) = some (out, s) ∧
      out.length = ([97, 98, 99] : GoString).length ∧
      out[1]? = some (mutateByte (([97, 98, 99] : GoString).get ⟨1, by decide⟩) 5) ∧
      out[1]? ≠ ([97, 98, 99] : GoString)[1]? ∧
      (∀ i, i ≠ 1 → out[i]? = ([97, 98, 99] : GoString)[i]?) ∧
      out ≠ [97, 98, 99] :=
  generateRandomMessage_changes_one_byte [97, 98, 99] (fun i => if i = 0 then 1 else 5) 1 5
    (by decide) (by decide) (by decide) rfl rfl

/-! ### Counting the candidates

One unit of fuel is one pass through a loop body, that is one candidate
generated; the least fuel with which a run ends by itself is therefore the
number of candidates it generates. -/

/-- A returning run of the preimage loop generates `j` candidates, where the
counter ends at `k + j`: `j` units of fuel are enough and fewer are not. -/
theorem preimageLoop_attempts (H : GoString → GoString) (initialMsg : GoString)
    (isSequential : Bool) (bits : Int) (target : GoString) (fuel : Nat) :
    ∀ (k : Nat) (cur : GoString) (s : RandSource) (n : Int), k ≤ 5000000 →
      preimageLoop H initialMsg isSequential bits target fuel k cur s = Outcome.returned n →
      ∃ j, 1 ≤ j ∧ j ≤ fuel ∧ k + j ≤ 5000001 ∧
        (n = ((k + j : Nat) : Int) ∨ (n = -1 ∧ k + j = 5000001)) ∧
        preimageLoop H initialMsg isSequential bits target j k cur s = Outcome.returned n ∧
        ∀ f, f < j →
          preimageLoop H initialMsg isSequential bits target f k cur s = Outcome.outOfFuel := by
  induction fuel with
  | zero =>
    intro k cur s n _ h
    simp [preimageLoop] at h
  | succ fuel ih =>
    intro k cur s n hk h
    cases hn : nextCandidate initialMsg isSequential (k + 1) cur s with
    | none => simp [preimageLoop, hn] at h
    | some p =>
      obtain ⟨c, cur1, s1⟩ := p
      cases ht : truncateHash (H c) bits with
      | none => simp [preimageLoop, hn, ht] at h
      | some t =>
        have hstep := fun f =>
          preimageLoop_step H initialMsg isSequential bits target f k cur s c cur1 s1 t hn ht
        rw [hstep fuel] at h
        have hzero : ∀ f, f < 1 →
            preimageLoop H initialMsg isSequential bits target f k cur s = Outcome.outOfFuel := by
          intro f hf
          have : f = 0 := by omega
          subst this
          rfl
        by_cases hm : t = target
        · rw [if_pos hm] at h
          injection h with h
          refine ⟨1, by omega, by omega, by omega, Or.inl h.symm, ?_, hzero⟩
          rw [hstep 0, if_pos hm, h]
        · rw [if_neg hm] at h
          by_cases hcap : k + 1 > 5000000
          · rw [if_pos hcap] at h
            injection h with h
            refine ⟨1, by omega, by omega, by omega, Or.inr ⟨h.symm, by omega⟩, ?_, hzero⟩
            rw [hstep 0, if_neg hm, if_pos hcap, h]
          · rw [if_neg hcap] at h
            obtain ⟨j, hj1, hj2, hj3, hres, hrun, hless⟩ := ih (k + 1) cur1 s1 n (by omega) h
            refine ⟨j + 1, by omega, by omega, by omega, ?_, ?_, ?_⟩
            · rcases hres with hres | ⟨hres, hres2⟩
              · left
                rw [hres]
                congr 1
                omega
              · right
                exact ⟨hres, by omega⟩
            · rw [hstep j, if_neg hm, if_neg hcap]
              exact hrun
            · intro f hf
              cases f with
              | zero => rfl
              | succ f =>
                rw [hstep f, if_neg hm, if_neg hcap]
                exact hless f (by omega)

/-- A returning run of the birthday loop generates `j` candidates, where the
counter ends at `k + j`: `j` units of fuel are enough and fewer are not. -/
theorem birthdayLoop_attempts (H : GoString → GoString) (initialMsg : GoString)
    (isSequential : Bool) (bits : Int) (fuel : Nat) :
    ∀ (k : Nat) (cur : GoString) (s : RandSource) (seen : SeenMap) (n : Int), k ≤ 5000000 →
      birthdayLoop H initialMsg isSequential bits fuel k cur s seen = Outcome.returned n →
      ∃ j, 1 ≤ j ∧ j ≤ fuel ∧ k + j ≤ 5000001 ∧
        (n = ((k + j : Nat) : Int) ∨ (n = -1 ∧ k + j = 5000001)) ∧
        birthdayLoop H initialMsg isSequential bits j k cur s seen = Outcome.returned n ∧
        ∀ f, f < j →
          birthdayLoop H initialMsg isSequential bits f k cur s seen = Outcome.outOfFuel := by
  induction fuel with
  | zero =>
    intro k cur s seen n _ h
    simp [birthdayLoop] at h
  | succ fuel ih =>
    intro k cur s seen n hk h
    cases hn : nextCandidate initialMsg isSequential (k + 1) cur s with
    | none => simp [birthdayLoop, hn] at h
    | some p =>
      obtain ⟨c, cur1, s1⟩ := p
      cases ht : truncateHash (H c) bits with
      | none => simp [birthdayLoop, hn, ht] at h
      | some t =>
        have hstep := fun f =>
          birthdayLoop_step H initialMsg isSequential bits f k cur s seen c cur1 s1 t hn ht
        rw [hstep fuel] at h
        have hzero : ∀ f, f < 1 →
            birthdayLoop H initialMsg isSequential bits f k cur s seen = Outcome.outOfFuel := by
          intro f hf
          have : f = 0 := by omega
          subst this
          rfl
        by_cases hm : collides seen t c = true
        · rw [if_pos hm] at h
          injection h with h
          refine ⟨1, by omega, by omega, by omega, Or.inl h.symm, ?_, hzero⟩
          rw [hstep 0, if_pos hm, h]
        · rw [if_neg hm] at h
          by_cases hcap : k + 1 > 5000000
          · rw [if_pos hcap] at h
            injection h with h
            refine ⟨1, by omega, by omega, by omega, Or.inr ⟨h.symm, by omega⟩, ?_, hzero⟩
            rw [hstep 0, if_neg hm, if_pos hcap, h]
          · rw [if_neg hcap] at h
            obtain ⟨j, hj1, hj2, hj3, hres, hrun, hless⟩ := ih (k + 1) cur1 s1 _ n (by omega) h
            refine ⟨j + 1, by omega, by omega, by omega, ?_, ?_, ?_⟩
            · rcases hres with hres | ⟨hres, hres2⟩
              · left
                rw [hres]
                congr 1
                omega
              · right
                exact ⟨hres, by omega⟩
            · rw [hstep j, if_neg hm, if_neg hcap]
              exact hrun
            · intro f hf
              cases f with
              | zero => rfl
              | succ f =>
                rw [hstep f, if_neg hm, if_neg hcap]
                exact hless f (by omega)

/-- C15: on every input for which the mutator is defined (any message in
sequential mode, any non-empty message and any draws in random mode, any
`bits ≥ 0`) both searches return, after generating `attempts` candidates with
`1 ≤ attempts ≤ 5000001`: the loops end with `attempts` passes and not with
fewer, the candidates 1, ..., `attempts` are the ones generated, and the
returned value is the counter `attempts` itself, or -1 with `attempts = 5000001`. -/
theorem searches_terminate (H : GoString → GoString) (src : RandSource)
    (initialMsg : GoString) (isSequential : Bool) (bits : Int)
    (hm : isSequential = true ∨ initialMsg ≠ []) (hb : 0 ≤ bits) :
    (∃ (target : GoString) (n : Int) (attempts : Nat),
      truncateHash (H initialMsg) bits = some target ∧
      PreimageAttack H src initialMsg isSequential bits = Outcome.returned n ∧
      1 ≤ attempts ∧ attempts ≤ 5000001 ∧
      (n = (attempts : Int) ∨ (n = -1 ∧ attempts = 5000001)) ∧
      preimageLoop H initialMsg isSequential bits target attempts 0 initialMsg src =
        Outcome.returned n ∧
      (∀ f, f < attempts →
        preimageLoop H initialMsg isSequential bits target f 0 initialMsg src =
          Outcome.outOfFuel) ∧
      (∀ j, 1 ≤ j → j ≤ attempts → ∃ c, candidate initialMsg isSequential src j = some c)) ∧
    (∃ (n : Int) (attempts : Nat),
      BirthdayAttack H src initialMsg isSequential bits = Outcome.returned n ∧
      1 ≤ attempts ∧ attempts ≤ 5000001 ∧
      (n = (attempts : Int) ∨ (n = -1 ∧ attempts = 5000001)) ∧
      birthdayLoop H initialMsg isSequential bits attempts 0 initialMsg src (fun _ => none) =
        Outcome.returned n ∧
      (∀ f, f < attempts →
        birthdayLoop H initialMsg isSequential bits f 0 initialMsg src (fun _ => none) =
          Outcome.outOfFuel) ∧
      (∀ j, 1 ≤ j → j ≤ attempts → ∃ c, candidate initialMsg isSequential src j = some c)) := by
  have hcand : ∀ j, ∃ c, candidate initialMsg isSequential src j = some c := by
    intro j
    obtain ⟨c, cur, s, hw, _⟩ := walk_defined initialMsg isSequential src hm j
    exact ⟨c, by simp [candidate, hw]⟩
  obtain ⟨target, ht⟩ := truncateHash_isSome (H initialMsg) bits (by omega)
  obtain ⟨n1, h1⟩ := preimageLoop_total H initialMsg isSequential bits target (by omega)
    searchFuel 0 initialMsg src hm (by omega) (by unfold searchFuel; omega)
  obtain ⟨n2, h2⟩ := birthdayLoop_total H initialMsg isSequential bits (by omega) searchFuel
    0 initialMsg src (fun _ => none) hm (by omega) (by unfold searchFuel; omega)
  constructor
  · obtain ⟨j, hj1, _, hj3, hres, hrun, hless⟩ :=
      preimageLoop_attempts H initialMsg isSequential bits target searchFuel 0 initialMsg src n1
        (by omega) h1
    refine ⟨target, n1, j, ht, ?_, hj1, by omega, ?_, hrun, hless, fun i _ _ => hcand i⟩
    · unfold PreimageAttack
      simp only [ht]
      exact h1
    · rcases hres with hres | ⟨hres, hres2⟩
      · left
        rw [hres]
        congr 1
        omega
      · right
        exact ⟨hres, by omega⟩
  · obtain ⟨j, hj1, _, hj3, hres, hrun, hless⟩ :=
      birthdayLoop_attempts H initialMsg isSequential bits searchFuel 0 initialMsg src
        (fun _ => none) n2 (by omega) h2
    refine ⟨n2, j, h2, hj1, by omega, ?_, hrun, hless, fun i _ _ => hcand i⟩
    rcases hres with hres | ⟨hres, hres2⟩
    · left
      rw [hres]
      congr 1
      omega
    · right
      exact ⟨hres, by omega⟩

/-- C15 at a concrete input: the sequential preimage search of "TEST" at 8 bits
generates 28 candidates. -/
theorem searches_terminate_witness :
    ∃ attempts : Nat, attempts = 28 ∧ attempts ≤ 5000001 ∧
      PreimageAttack calculateHash (fun _ => 0) [84, 69, 83, 84] true 8 =
        Outcome.returned (attempts : Int) := by
  obtain ⟨⟨target, n, attempts, _, hret, _, hle, hres, _⟩, _⟩ :=
    searches_terminate calculateHash (fun _ => 0) [84, 69, 83, 84] true 8 (Or.inl rfl)
      (by decide)
  rw [preimage_TEST_8] at hret
  injection hret with hret
  refine ⟨attempts, by omega, hle, ?_⟩
  rw [preimage_TEST_8]
  congr 1
  omega

/-! ### The states the birthday loop passes through -/

/-- A state after `k + 1` iterations comes from a state after `k` iterations by
one iteration that found no collision below the cap. -/
theorem birthdayState_succ (H : GoString → GoString) (initialMsg : GoString)
    (isSequential : Bool) (bits : Int) (src : RandSource) (k : Nat)
    (cur1 : GoString) (s1 : RandSource) (seen1 : SeenMap)
    (h : birthdayState H initialMsg isSequential bits src (k + 1) = some (cur1, s1, seen1)) :
    ∃ cur s seen c t,
      birthdayState H initialMsg isSequential bits src k = some (cur, s, seen) ∧
      nextCandidate initialMsg isSequential (k + 1) cur s = some (c, cur1, s1) ∧
      truncateHash (H c) bits = some t ∧ ¬ collides seen t c = true ∧ k + 1 ≤ 5000000 ∧
      seen1 = Function.update seen t (some ⟨c, H c⟩) := by
  cases hst : birthdayState H initialMsg isSequential bits src k with
  | none => simp [birthdayState, hst] at h
  | some st =>
    obtain ⟨cur, s, seen⟩ := st
    cases hn : nextCandidate initialMsg isSequential (k + 1) cur s with
    | none => simp [birthdayState, hst, hn] at h
    | some p =>
      obtain ⟨c, cur2, s2⟩ := p
      cases ht : truncateHash (H c) bits with
      | none => simp [birthdayState, hst, hn, ht] at h
      | some t =>
        simp only [birthdayState, hst, hn, ht] at h
        by_cases hm : collides seen t c = true
        · rw [if_pos hm] at h
          cases h
        · rw [if_neg hm] at h
          by_cases hcap : k + 1 > 5000000
          · rw [if_pos hcap] at h
            cases h
          · rw [if_neg hcap] at h
            injection h with h
            injection h with h1 h2
            injection h2 with h2 h3
            subst h1 h2 h3
            exact ⟨cur, s, seen, c, t, rfl, hn, ht, hm, by omega, rfl⟩

/-- The states of the birthday loop follow the sequence of candidates. -/
theorem birthdayState_walk (H : GoString → GoString) (initialMsg : GoString)
    (isSequential : Bool) (bits : Int) (src : RandSource) (k : Nat) :
    ∀ (cur : GoString) (s : RandSource) (seen : SeenMap),
      birthdayState H initialMsg isSequential bits src k = some (cur, s, seen) →
      ∃ c0, walk initialMsg isSequential src k = some (c0, cur, s) := by
  induction k with
  | zero =>
    intro cur s seen h
    simp only [birthdayState] at h
    injection h with h
    injection h with h1 h2
    injection h2 with h2 h3
    subst h1 h2
    exact ⟨initialMsg, rfl⟩
  | succ k ih =>
    intro cur1 s1 seen1 h
    obtain ⟨cur, s, seen, c, t, hst, hn, _, _, _, _⟩ :=
      birthdayState_succ H initialMsg isSequential bits src k cur1 s1 seen1 h
    obtain ⟨c0, hw⟩ := ih cur s seen hst
    exact ⟨c, (candidate_succ initialMsg isSequential src k c0 cur s c cur1 s1 hw hn).1⟩

/-- The states are the ones the search is in: from a state after `k`
iterations the search continues as the loop with the fuel that is left. -/
theorem birthdayState_run (H : GoString → GoString) (initialMsg : GoString)
    (isSequential : Bool) (bits : Int) (src : RandSource) (k : Nat) :
    ∀ (cur : GoString) (s : RandSource) (seen : SeenMap),
      birthdayState H initialMsg isSequential bits src k = some (cur, s, seen) →
      ∃ f, k + f = 5000001 ∧ k ≤ 5000000 ∧
        BirthdayAttack H src initialMsg isSequential bits =
          birthdayLoop H initialMsg isSequential bits f k cur s seen := by
  induction k with
  | zero =>
    intro cur s seen h
    simp only [birthdayState] at h
    injection h with h
    injection h with h1 h2
    injection h2 with h2 h3
    subst h1 h2 h3
    exact ⟨searchFuel, by unfold searchFuel; omega, by omega, rfl⟩
  | succ k ih =>
    intro cur1 s1 seen1 h
    obtain ⟨cur, s, seen, c, t, hst, hn, ht, hm, hcap, hseen⟩ :=
      birthdayState_succ H initialMsg isSequential bits src k cur1 s1 seen1 h
    obtain ⟨f, hf, _, hrun⟩ := ih cur s seen hst
    obtain ⟨g, rfl⟩ : ∃ g, f = g + 1 := ⟨f - 1, by omega⟩
    refine ⟨g, by omega, hcap, ?_⟩
    rw [hrun, birthdayLoop_step H initialMsg isSequential bits g k cur s seen c cur1 s1 t hn ht,
      if_neg hm, if_neg (by omega), hseen]

/-- The invariant of the map on the states of the loop: every earlier candidate
is the message stored under its truncated digest, with its full digest. -/
theorem birthdayState_stores_candidates (H : GoString → GoString) (initialMsg : GoString)
    (isSequential : Bool) (bits : Int) (src : RandSource) (k : Nat) :
    ∀ (cur : GoString) (s : RandSource) (seen : SeenMap),
      birthdayState H initialMsg isSequential bits src k = some (cur, s, seen) →
      ∀ j c t, 1 ≤ j → j ≤ k → candidate initialMsg isSequential src j = some c →
        truncateHash (H c) bits = some t →
        ∃ e, seen t = some e ∧ e.message = c ∧ e.fullHash = H c := by
  induction k with
  | zero =>
    intro cur s seen _ j c t h1 h2
    omega
  | succ k ih =>
    intro cur1 s1 seen1 h j cj tj hj1 hj2 hcj htj
    obtain ⟨cur, s, seen, c, t, hst, hn, ht, hm, _, hseen⟩ :=
      birthdayState_succ H initialMsg isSequential bits src k cur1 s1 seen1 h
    obtain ⟨c0, hw⟩ := birthdayState_walk H initialMsg isSequential bits src k cur s seen hst
    obtain ⟨_, hc⟩ := candidate_succ initialMsg isSequential src k c0 cur s c cur1 s1 hw hn
    subst hseen
    by_cases hjk : j = k + 1
    · subst hjk
      rw [hc] at hcj
      cases hcj
      rw [ht] at htj
      cases htj
      exact ⟨_, Function.update_same _ _ _, rfl, rfl⟩
    · obtain ⟨e, he, hmsg, hfull⟩ := ih cur s seen hst j cj tj hj1 (by omega) hcj htj
      by_cases htt : tj = t
      · subst htt
        have hsame : e.message = c := by
          by_contra hdiff
          exact hm ((collides_eq_true_iff seen tj c).mpr ⟨e, he, hdiff⟩)
        refine ⟨_, Function.update_same _ _ _, ?_, ?_⟩
        · show c = cj
          rw [← hsame, hmsg]
        · show H c = H cj
          rw [← hsame, hmsg]
      · rw [Function.update_noteq htt]
        exact ⟨e, he, hmsg, hfull⟩

/-- The weaker map invariant holds on the states of the loop as well. -/
theorem birthdayState_SeenInv (H : GoString → GoString) (initialMsg : GoString)
    (isSequential : Bool) (bits : Int) (src : RandSource) (k : Nat) :
    ∀ (cur : GoString) (s : RandSource) (seen : SeenMap),
      birthdayState H initialMsg isSequential bits src k = some (cur, s, seen) →
      SeenInv H initialMsg isSequential src bits k seen := by
  induction k with
  | zero =>
    intro cur s seen h
    simp only [birthdayState] at h
    injection h with h
    injection h with h1 h2
    injection h2 with h2 h3
    subst h3
    exact SeenInv_init H initialMsg isSequential src bits
  | succ k ih =>
    intro cur1 s1 seen1 h
    obtain ⟨cur, s, seen, c, t, hst, hn, ht, _, _, hseen⟩ :=
      birthdayState_succ H initialMsg isSequential bits src k cur1 s1 seen1 h
    obtain ⟨c0, hw⟩ := birthdayState_walk H initialMsg isSequential bits src k cur s seen hst
    obtain ⟨_, hc⟩ := candidate_succ initialMsg isSequential src k c0 cur s c cur1 s1 hw hn
    rw [hseen]
    exact SeenInv_update H initialMsg isSequential src bits k seen c t
      (ih cur s seen hst) hc ht

/-- One more iteration without a collision below the cap gives the next state. -/
theorem birthdayState_next (H : GoString → GoString) (initialMsg : GoString)
    (isSequential : Bool) (bits : Int) (src : RandSource) (k : Nat)
    (cur : GoString) (s : RandSource) (seen : SeenMap) (c cur1 : GoString) (s1 : RandSource)
    (t : GoString)
    (hst : birthdayState H initialMsg isSequential bits src k = some (cur, s, seen))
    (hn : nextCandidate initialMsg isSequential (k + 1) cur s = some (c, cur1, s1))
    (ht : truncateHash (H c) bits = some t) (hm : ¬ collides seen t c = true)
    (hcap : ¬ k + 1 > 5000000) :
    birthdayState H initialMsg isSequential bits src (k + 1) =
      some (cur1, s1, Function.update seen t (some ⟨c, H c⟩)) := by
  simp only [birthdayState, hst, hn, ht]
  rw [if_neg hm, if_neg hcap]

/-- A run that reports a collision at attempt `r + 1` passed through the state
after `r` iterations. -/
theorem birthdayLoop_reaches (H : GoString → GoString) (initialMsg : GoString)
    (isSequential : Bool) (bits : Int) (src : RandSource) (fuel : Nat) :
    ∀ (k : Nat) (cur : GoString) (s : RandSource) (seen : SeenMap) (n : Int),
      birthdayState H initialMsg isSequential bits src k = some (cur, s, seen) →
      birthdayLoop H initialMsg isSequential bits fuel k cur s seen = Outcome.returned n →
      n ≠ -1 →
      ∃ r st, k ≤ r ∧ n = ((r + 1 : Nat) : Int) ∧
        birthdayState H initialMsg isSequential bits src r = some st := by
  induction fuel with
  | zero =>
    intro k cur s seen n _ h
    simp [birthdayLoop] at h
  | succ fuel ih =>
    intro k cur s seen n hst h hne
    cases hn : nextCandidate initialMsg isSequential (k + 1) cur s with
    | none => simp [birthdayLoop, hn] at h
    | some p =>
      obtain ⟨c, cur1, s1⟩ := p
      cases ht : truncateHash (H c) bits with
      | none => simp [birthdayLoop, hn, ht] at h
      | some t =>
        rw [birthdayLoop_step H initialMsg isSequential bits fuel k cur s seen c cur1 s1 t hn ht] at h
        by_cases hm : collides seen t c = true
        · rw [if_pos hm] at h
          injection h with h
          exact ⟨k, _, le_refl k, h.symm, hst⟩
        · rw [if_neg hm] at h
          by_cases hcap : k + 1 > 5000000
          · rw [if_pos hcap] at h
            injection h with h
            exact absurd h.symm hne
          · rw [if_neg hcap] at h
            obtain ⟨r, st, hkr, hr, hrst⟩ := ih (k + 1) cur1 s1 _ n
              (birthdayState_next H initialMsg isSequential bits src k cur s seen c cur1 s1 t
                hst hn ht hm hcap) h hne
            exact ⟨r, st, by omega, hr, hrst⟩

/-- No attempt that the loop passed had a collision. -/
theorem birthdayState_no_collision (H : GoString → GoString) (initialMsg : GoString)
    (isSequential : Bool) (bits : Int) (src : RandSource) (k : Nat) :
    ∀ st, birthdayState H initialMsg isSequential bits src k = some st →
      ∀ j, j ≤ k → ¬ collisionAt H initialMsg isSequential src bits j := by
  induction k with
  | zero =>
    intro st _ j hj hcol
    obtain ⟨i, _, _, _, hi1, hi2, _⟩ := hcol
    omega
  | succ k ih =>
    intro st h j hj hcol
    obtain ⟨cur1, s1, seen1⟩ := st
    obtain ⟨cur, s, seen, c, t, hst, hn, ht, hm, _, _⟩ :=
      birthdayState_succ H initialMsg isSequential bits src k cur1 s1 seen1 h
    by_cases hjk : j = k + 1
    · subst hjk
      obtain ⟨c0, hw⟩ := birthdayState_walk H initialMsg isSequential bits src k cur s seen hst
      obtain ⟨_, hc⟩ := candidate_succ initialMsg isSequential src k c0 cur s c cur1 s1 hw hn
      obtain ⟨i, cn, ci, t1, hi1, hi2, hcn, hci, hdiff, htn, hti⟩ := hcol
      rw [hc] at hcn
      cases hcn
      rw [ht] at htn
      cases htn
      obtain ⟨e, he, hmsg, _⟩ := birthdayState_stores_candidates H initialMsg isSequential bits
        src k cur s seen hst i ci t hi1 (by omega) hci hti
      exact hm ((collides_eq_true_iff seen t c).mpr ⟨e, he, by rw [hmsg]; exact fun hh => hdiff hh.symm⟩)
    · exact ih _ hst j (by omega) hcol

/-! ### Two attempts -/

/-- The mutator never returns its input. -/
theorem generateRandomMessage_ne (msg c : GoString) (src s : RandSource)
    (h : generateRandomMessage msg src = some (c, s)) : c ≠ msg := by
  by_cases hm : msg = []
  · subst hm
    rw [generateRandomMessage_nil] at h
    cases h
  · have hpos : 0 < msg.length := List.length_pos.mpr hm
    have hlt : src 0 % msg.length < msg.length := Nat.mod_lt _ hpos
    rw [generateRandomMessage_of_lt msg src hlt] at h
    injection h with h
    injection h with h1 h2
    rw [← h1]
    exact set_ne_self msg _ hlt _ (mutateByte_ne_self _ _ (Nat.mod_lt _ (by decide)))

theorem Itoa_one_ne_two : Itoa 2 ≠ Itoa 1 := by decide

/-- The first two candidates exist and are different messages. -/
theorem first_two_candidates_differ (initialMsg : GoString) (isSequential : Bool)
    (src : RandSource) (hm : isSequential = true ∨ initialMsg ≠ []) :
    ∃ c1 c2, candidate initialMsg isSequential src 1 = some c1 ∧
      candidate initialMsg isSequential src 2 = some c2 ∧ c2 ≠ c1 := by
  cases isSequential with
  | true =>
    refine ⟨_, _, candidate_sequential initialMsg src 1 (by omega),
      candidate_sequential initialMsg src 2 (by omega), ?_⟩
    intro h
    exact Itoa_one_ne_two (List.append_cancel_left h)
  | false =>
    obtain ⟨c1, cur1, s1, hw1, hc1⟩ := walk_defined initialMsg false src hm 1
    obtain ⟨c2, cur2, s2, hn, _⟩ := nextCandidate_defined initialMsg false (1 + 1) cur1 s1 hc1
    obtain ⟨_, hcand2⟩ := candidate_succ initialMsg false src 1 c1 cur1 s1 c2 cur2 s2 hw1 hn
    have hcur : cur1 = c1 := by
      have hw := hw1
      simp only [walk, nextCandidate, Bool.false_eq_true, if_false] at hw
      cases hg : generateRandomMessage initialMsg src with
      | none => simp [hg] at hw
      | some p =>
        obtain ⟨a, b⟩ := p
        simp only [hg] at hw
        injection hw with hw
        injection hw with e1 e2
        injection e2 with e2 e3
        rw [← e1, ← e2]
    subst hcur
    refine ⟨cur1, c2, by simp [candidate, hw1], hcand2, ?_⟩
    simp only [nextCandidate, Bool.false_eq_true, if_false] at hn
    cases hg : generateRandomMessage cur1 s1 with
    | none => simp [hg] at hn
    | some p =>
      obtain ⟨a, b⟩ := p
      simp only [hg] at hn
      injection hn with hn
      injection hn with e1 e2
      rw [← e1]
      exact generateRandomMessage_ne cur1 a s1 b hg

/-- C17: with `bits = 0` the birthday search returns exactly 2, for every
initial message in sequential mode and every non-empty initial message and any
draws in random mode: both candidates have the empty truncated digest and the
second candidate is a different message from the first. -/
theorem BirthdayAttack_zero_bits (H : GoString → GoString) (src : RandSource)
    (initialMsg : GoString) (isSequential : Bool)
    (hm : isSequential = true ∨ initialMsg ≠ []) :
    BirthdayAttack H src initialMsg isSequential 0 = Outcome.returned 2 ∧
      ∃ c1 c2, candidate initialMsg isSequential src 1 = some c1 ∧
        candidate initialMsg isSequential src 2 = some c2 ∧ c2 ≠ c1 ∧
        truncateHash (H c1) 0 = some [] ∧ truncateHash (H c2) 0 = some [] := by
  have ht : ∀ d : GoString, truncateHash d 0 = some [] := fun d => by simp [truncateHash]
  obtain ⟨c1, c2, hc1, hc2, hdiff⟩ := first_two_candidates_differ initialMsg isSequential src hm
  refine ⟨?_, c1, c2, hc1, hc2, hdiff, ht _, ht _⟩
  have h := BirthdayAttack_first_collision H src initialMsg isSequential 0 2 (by omega) (by omega)
    (fun j hj1 hj2 => by
      have hj : j = 1 := by omega
      subst hj
      exact ⟨c1, [], hc1, ht _⟩)
    ⟨1, c2, c1, [], by omega, by omega, hc2, hc1, hdiff, ht _, ht _⟩
    (fun j hj hcol => by
      obtain ⟨i, _, _, _, hi1, hi2, _⟩ := hcol
      omega)
  exact h

/-- C17 at a concrete input: the one-byte message "a" in random mode. -/
theorem BirthdayAttack_zero_bits_witness :
    (false = true ∨ ([97] : GoString) ≠ []) ∧
    (BirthdayAttack calculateHash cycleDraws [97] false 0 = Outcome.returned 2 ∧
      ∃ c1 c2, candidate [97] false cycleDraws 1 = some c1 ∧
        candidate [97] false cycleDraws 2 = some c2 ∧ c2 ≠ c1 ∧
        truncateHash (calculateHash c1) 0 = some [] ∧
        truncateHash (calculateHash c2) 0 = some []) :=
  ⟨Or.inr (by decide),
   BirthdayAttack_zero_bits calculateHash cycleDraws [97] false (Or.inr (by decide))⟩

/-! ### Returning to the initial message -/

/-- A shift by 1 followed by a shift by 255 restores the byte. -/
theorem mutateByte_round_trip (o : Byte) : mutateByte (mutateByte o 0) 254 = o := by
  apply Fin.ext
  rw [mutateByte_val, mutateByte_val]
  have h := o.isLt
  omega

/-- Under the self-undoing draws the second candidate is the initial message. -/
theorem returnDraws_candidates (m : GoString) (idx : Nat) (hidx : idx < m.length) :
    candidate m false (returnDraws idx) 1 =
        some (m.set idx (mutateByte (m.get ⟨idx, hidx⟩) 0)) ∧
      candidate m false (returnDraws idx) 2 = some m := by
  have hg1 := generateRandomMessage_eq_set m (returnDraws idx) idx hidx rfl
  have hr1 : returnDraws idx 1 % 255 = 0 := rfl
  rw [hr1] at hg1
  have hw1 : walk m false (returnDraws idx) 1 =
      some (m.set idx (mutateByte (m.get ⟨idx, hidx⟩) 0),
        m.set idx (mutateByte (m.get ⟨idx, hidx⟩) 0), fun i => returnDraws idx (i + 2)) := by
    simp only [walk, nextCandidate, Bool.false_eq_true, if_false, hg1]
  have hlen : idx < (m.set idx (mutateByte (m.get ⟨idx, hidx⟩) 0)).length := by
    simpa using hidx
  have hg2 := generateRandomMessage_eq_set (m.set idx (mutateByte (m.get ⟨idx, hidx⟩) 0))
    (fun i => returnDraws idx (i + 2)) idx hlen rfl
  have hr2 : returnDraws idx (1 + 2) % 255 = 254 := rfl
  simp only [hr2] at hg2
  have hget : (m.set idx (mutateByte (m.get ⟨idx, hidx⟩) 0)).get ⟨idx, hlen⟩ =
      mutateByte (m.get ⟨idx, hidx⟩) 0 := by
    simp
  rw [hget, mutateByte_round_trip, List.set_set] at hg2
  have hback : m.set idx (m.get ⟨idx, hidx⟩) = m := by
    apply List.ext_getElem?
    intro i
    by_cases hi : idx = i
    · subst hi
      rw [List.getElem?_set_self hidx, List.getElem?_eq_getElem hidx]
      rfl
    · rw [List.getElem?_set_ne hi]
  rw [hback] at hg2
  constructor
  · simp [candidate, hw1]
  · have hw2 : walk m false (returnDraws idx) 2 =
        some (m, m, fun i => returnDraws idx (i + 2 + 2)) := by
      rw [walk, hw1]
      simp only [nextCandidate, Bool.false_eq_true, if_false, hg2]
    simp [candidate, hw2]

/-- C18: for every digest function, every non-empty initial message and every
bit-width `bits ≥ 0` there are draws (the same index twice, with the shifts 0
and then 254) under which the second candidate is byte-identical to the initial
message, so random-mode `PreimageAttack` returns 1 or 2; when it returns 2 the
message it found is the initial message itself. -/
theorem PreimageAttack_can_find_initial_message (H : GoString → GoString)
    (initialMsg : GoString) (bits : Int) (idx : Nat)
    (hne : initialMsg ≠ []) (hb : 0 ≤ bits) (hidx : idx < initialMsg.length) :
    returnDraws idx 0 = idx ∧ returnDraws idx 1 = 0 ∧
      returnDraws idx 2 = idx ∧ returnDraws idx 3 = 254 ∧
      candidate initialMsg false (returnDraws idx) 2 = some initialMsg ∧
      (PreimageAttack H (returnDraws idx) initialMsg false bits = Outcome.returned 1 ∨
        PreimageAttack H (returnDraws idx) initialMsg false bits = Outcome.returned 2) := by
  have _ := hne
  obtain ⟨hc1, hc2⟩ := returnDraws_candidates initialMsg idx hidx
  refine ⟨rfl, rfl, rfl, rfl, hc2, ?_⟩
  obtain ⟨target, htarget⟩ := truncateHash_isSome (H initialMsg) bits (by omega)
  obtain ⟨t1, ht1⟩ := truncateHash_isSome
    (H (initialMsg.set idx (mutateByte (initialMsg.get ⟨idx, hidx⟩) 0))) bits (by omega)
  by_cases hhit : t1 = target
  · left
    have h := PreimageAttack_first_hit H (returnDraws idx) initialMsg false bits target 1
      htarget (by omega) (by omega) ⟨_, hc1, by rw [ht1, hhit]⟩
      (fun j hj1 hj2 => by omega)
    exact h
  · right
    have h := PreimageAttack_first_hit H (returnDraws idx) initialMsg false bits target 2
      htarget (by omega) (by omega) ⟨_, hc2, htarget⟩
      (fun j hj1 hj2 => by
        have hj : j = 1 := by omega
        subst hj
        exact ⟨_, t1, hc1, ht1, hhit⟩)
    exact h

/-- C18 at a concrete input: with SHA-1, the message "a" and 16 bits the search
under the self-undoing draws returns 2, and candidate 2 is "a" itself. -/
theorem PreimageAttack_can_find_initial_message_witness :
    candidate [97] false (returnDraws 0) 2 = some [97] ∧
      PreimageAttack calculateHash (returnDraws 0) [97] false 16 = Outcome.returned 2 := by
  obtain ⟨_, _, _, _, hc, hret⟩ :=
    PreimageAttack_can_find_initial_message calculateHash [97] 16 0 (by decide) (by decide)
      (by decide)
  refine ⟨hc, ?_⟩
  rcases hret with h1 | h2
  · exfalso
    have hr := PreimageAttack_first_hit calculateHash (returnDraws 0) [97] false 16
      [54, 55, 98, 56] 2 truncate16_a (by omega) (by omega) ⟨[97], hc, truncate16_a⟩
      (fun j hj1 hj2 => by
        have hj : j = 1 := by omega
        subst hj
        exact ⟨[98], [56, 102, 57, 56], (returnDraws_candidates [97] 0 (by decide)).1,
          truncate16_b, by decide⟩)
    rw [hr] at h1
    injection h1 with h1
    omega
  · exact h2

/-! ### Negative bit-widths -/

/-- C19: for every string `d` and every integer `bits`, `truncateHash d bits`
returns normally if and only if `bits ≥ -3`: for `-3 ≤ bits ≤ -1` the nibble
count is 0 and the result is the empty string, while for `bits ≤ -4` the nibble
count is negative, the length clamp does not apply, and the slice start
`len(d) - bits / 4` lies past the end of `d`, which is a run-time panic. -/
theorem truncateHash_returns_iff (d : GoString) (bits : Int) :
    ((∃ t, truncateHash d bits = some t) ↔ -3 ≤ bits) ∧
    (-3 ≤ bits → bits ≤ -1 → Int.tdiv bits 4 = 0 ∧ truncateHash d bits = some []) ∧
    (bits ≤ -4 → Int.tdiv bits 4 < 0 ∧ ¬ ((d.length : Int) < Int.tdiv bits 4) ∧
      (d.length : Int) < (d.length : Int) - Int.tdiv bits 4 ∧
      sliceFrom d ((d.length : Int) - Int.tdiv bits 4) = none ∧
      truncateHash d bits = none) := by
  refine ⟨?_, ?_, ?_⟩
  · constructor
    · rintro ⟨t, ht⟩
      by_contra hlt
      have hnone := (truncateHash_eq_none_iff d bits).mpr (by omega)
      rw [hnone] at ht
      cases ht
    · intro h
      exact truncateHash_isSome d bits h
  · intro h1 h2
    have hq : Int.tdiv bits 4 = 0 := by
      rw [tdiv_four_of_neg bits (by omega)]
      omega
    refine ⟨hq, ?_⟩
    have h0 : bits ≠ 0 := by omega
    have hl : ¬ ((d.length : Int) < 0) := by omega
    simp [truncateHash, h0, hq, sliceFrom, hl]
  · intro h
    have hq : Int.tdiv bits 4 < 0 := by
      rw [tdiv_four_of_neg bits (by omega)]
      omega
    refine ⟨hq, by omega, by omega, ?_, (truncateHash_eq_none_iff d bits).mpr h⟩
    unfold sliceFrom
    rw [if_neg (by omega)]

/-- C19 at concrete inputs: `-3` still returns the empty string, `-4` panics. -/
theorem truncateHash_returns_iff_witness :
    truncateHash [97, 98] (-3) = some [] ∧ truncateHash [97, 98] (-4) = none :=
  ⟨((truncateHash_returns_iff [97, 98] (-3)).2.1 (by decide) (by decide)).2,
   ((truncateHash_returns_iff [97, 98] (-4)).2.2 (by decide)).2.2.2.2⟩

/-! ### Statistics on results that do not round -/

theorem float64Rounding_rnd (q : ℚ) : float64Rounding.rnd q = round53 q := rfl

/-- A run that gives up passed through the state after 5000000 iterations and
found no collision on attempt 5000001 either. -/
theorem birthdayLoop_reaches_cap (H : GoString → GoString) (initialMsg : GoString)
    (isSequential : Bool) (bits : Int) (src : RandSource) (fuel : Nat) :
    ∀ (k : Nat) (cur : GoString) (s : RandSource) (seen : SeenMap),
      k ≤ 5000000 →
      birthdayState H initialMsg isSequential bits src k = some (cur, s, seen) →
      birthdayLoop H initialMsg isSequential bits fuel k cur s seen = Outcome.returned (-1) →
      ∃ cur0 s0 seen0 c cur1 s1 t,
        birthdayState H initialMsg isSequential bits src 5000000 = some (cur0, s0, seen0) ∧
        nextCandidate initialMsg isSequential (5000000 + 1) cur0 s0 = some (c, cur1, s1) ∧
        truncateHash (H c) bits = some t ∧ ¬ collides seen0 t c = true := by
  induction fuel with
  | zero =>
    intro k cur s seen _ _ h
    simp [birthdayLoop] at h
  | succ fuel ih =>
    intro k cur s seen hk hst h
    cases hn : nextCandidate initialMsg isSequential (k + 1) cur s with
    | none => simp [birthdayLoop, hn] at h
    | some p =>
      obtain ⟨c, cur1, s1⟩ := p
      cases ht : truncateHash (H c) bits with
      | none => simp [birthdayLoop, hn, ht] at h
      | some t =>
        rw [birthdayLoop_step H initialMsg isSequential bits fuel k cur s seen c cur1 s1 t hn ht] at h
        by_cases hm : collides seen t c = true
        · rw [if_pos hm] at h
          injection h with h
          omega
        · rw [if_neg hm] at h
          by_cases hcap : k + 1 > 5000000
          · have hk5 : k = 5000000 := by omega
            subst hk5
            exact ⟨cur, s, seen, c, cur1, s1, t, hst, hn, ht, hm⟩
          · rw [if_neg hcap] at h
            exact ih (k + 1) cur1 s1 _ (by omega)
              (birthdayState_next H initialMsg isSequential bits src k cur s seen c cur1 s1 t
                hst hn ht hm hcap) h

/-- A search that returns -1 met no collision among its 5000001 candidates. -/
theorem BirthdayAttack_gave_up_no_collision (H : GoString → GoString) (src : RandSource)
    (initialMsg : GoString) (isSequential : Bool) (bits : Int)
    (hret : BirthdayAttack H src initialMsg isSequential bits = Outcome.returned (-1)) :
    ∀ k, k ≤ 5000001 → ¬ collisionAt H initialMsg isSequential src bits k := by
  unfold BirthdayAttack at hret
  obtain ⟨cur0, s0, seen0, c, cur1, s1, t, hst, hn, ht, hm⟩ :=
    birthdayLoop_reaches_cap H initialMsg isSequential bits src searchFuel 0 initialMsg src
      (fun _ => none) (by omega) rfl hret
  intro k hk hcol
  by_cases hk5 : k ≤ 5000000
  · exact birthdayState_no_collision H initialMsg isSequential bits src 5000000 _ hst k hk5 hcol
  · have hk1 : k = 5000000 + 1 := by omega
    subst hk1
    obtain ⟨c0, hw⟩ :=
      birthdayState_walk H initialMsg isSequential bits src 5000000 cur0 s0 seen0 hst
    obtain ⟨_, hc⟩ :=
      candidate_succ initialMsg isSequential src 5000000 c0 cur0 s0 c cur1 s1 hw hn
    obtain ⟨i, cn, ci, t1, hi1, hi2, hcn, hci, hdiff, htn, hti⟩ := hcol
    rw [hc] at hcn
    cases hcn
    rw [ht] at htn
    cases htn
    obtain ⟨e, he, hmsg, _⟩ := birthdayState_stores_candidates H initialMsg isSequential bits
      src 5000000 cur0 s0 seen0 hst i ci t hi1 (by omega) hci hti
    exact hm ((collides_eq_true_iff seen0 t c).mpr
      ⟨e, he, by rw [hmsg]; exact fun hh => hdiff hh.symm⟩)

/-- The candidates before a defined candidate are defined. -/
theorem candidate_defined_below (initialMsg : GoString) (isSequential : Bool)
    (src : RandSource) (d : Nat) :
    ∀ (k : Nat) (c : GoString), candidate initialMsg isSequential src (k + d) = some c →
      ∃ c0, candidate initialMsg isSequential src k = some c0 := by
  induction d with
  | zero =>
    intro k c h
    exact ⟨c, h⟩
  | succ d ih =>
    intro k c h
    have e : k + (d + 1) = (k + d) + 1 := by omega
    rw [e] at h
    cases hw : walk initialMsg isSequential src (k + d) with
    | none => simp [candidate, walk, hw] at h
    | some st =>
      exact ih k st.1 (by simp [candidate, hw])

/-- A collision at attempt `r` makes every earlier attempt defined. -/
theorem defined_of_collision (H : GoString → GoString) (initialMsg : GoString)
    (isSequential : Bool) (src : RandSource) (bits : Int) (r : Nat)
    (hcol : collisionAt H initialMsg isSequential src bits r) :
    ∀ j, 1 ≤ j → j < r → definedAt H initialMsg isSequential src bits j := by
  obtain ⟨i, cn, ci, t, _, _, hcn, _, _, htn, _⟩ := hcol
  have hbits : -3 ≤ bits := by
    by_contra hlt
    have hnone := (truncateHash_eq_none_iff (H cn) bits).mpr (by omega)
    rw [hnone] at htn
    cases htn
  intro j _ hj2
  obtain ⟨d, hd⟩ : ∃ d, r = j + d := ⟨r - j, by omega⟩
  rw [hd] at hcn
  obtain ⟨c0, hc0⟩ := candidate_defined_below initialMsg isSequential src d j cn hcn
  obtain ⟨t0, ht0⟩ := truncateHash_isSome (H c0) bits hbits
  exact ⟨c0, t0, hc0, ht0⟩

/-- C16: at every iteration of the birthday loop each earlier candidate with
truncated digest `t` is identical to the message stored under `t`, and the stored
full digest is the digest of that message and truncates to `t`; hence the search
reports the first collision and misses none: whenever `BirthdayAttack` returns
`n ≠ -1`, `n` is the smallest attempt number for which some earlier candidate
`j < n` has the same truncated digest and a different message; conversely the
first attempt `r ≤ 5000001` with such a collision is what the search returns,
and a search that returns -1 had no collision among its 5000001 candidates. -/
theorem BirthdayAttack_reports_first_collision (H : GoString → GoString) (src : RandSource)
    (initialMsg : GoString) (isSequential : Bool) (bits : Int) :
    (∀ (k : Nat) (cur : GoString) (s : RandSource) (seen : SeenMap),
      birthdayState H initialMsg isSequential bits src k = some (cur, s, seen) →
      (∃ f, k + f = 5000001 ∧
        BirthdayAttack H src initialMsg isSequential bits =
          birthdayLoop H initialMsg isSequential bits f k cur s seen) ∧
      (∀ j c t, 1 ≤ j → j ≤ k → candidate initialMsg isSequential src j = some c →
        truncateHash (H c) bits = some t →
        ∃ e, seen t = some e ∧ e.message = c ∧ e.fullHash = H c ∧
          truncateHash e.fullHash bits = some t)) ∧
    (∀ n : Int, BirthdayAttack H src initialMsg isSequential bits = Outcome.returned n →
      n ≠ -1 →
      ∃ r : Nat, n = (r : Int) ∧
        (∃ st, birthdayState H initialMsg isSequential bits src (r - 1) = some st) ∧
        (∃ (j : Nat) (cn cj t : GoString), 1 ≤ j ∧ j < r ∧
          candidate initialMsg isSequential src r = some cn ∧
          candidate initialMsg isSequential src j = some cj ∧ cn ≠ cj ∧
          truncateHash (H cn) bits = some t ∧ truncateHash (H cj) bits = some t) ∧
        (∀ k, k < r →
          ¬ ∃ (j : Nat) (ck cj t : GoString), 1 ≤ j ∧ j < k ∧
            candidate initialMsg isSequential src k = some ck ∧
            candidate initialMsg isSequential src j = some cj ∧ ck ≠ cj ∧
            truncateHash (H ck) bits = some t ∧ truncateHash (H cj) bits = some t)) ∧
    (∀ r : Nat, r ≤ 5000001 →
      (∃ (j : Nat) (cn cj t : GoString), 1 ≤ j ∧ j < r ∧
        candidate initialMsg isSequential src r = some cn ∧
        candidate initialMsg isSequential src j = some cj ∧ cn ≠ cj ∧
        truncateHash (H cn) bits = some t ∧ truncateHash (H cj) bits = some t) →
      (∀ k, k < r →
        ¬ ∃ (j : Nat) (ck cj t : GoString), 1 ≤ j ∧ j < k ∧
          candidate initialMsg isSequential src k = some ck ∧
          candidate initialMsg isSequential src j = some cj ∧ ck ≠ cj ∧
          truncateHash (H ck) bits = some t ∧ truncateHash (H cj) bits = some t) →
      BirthdayAttack H src initialMsg isSequential bits = Outcome.returned (r : Int)) ∧
    (BirthdayAttack H src initialMsg isSequential bits = Outcome.returned (-1) →
      ∀ k, k ≤ 5000001 →
        ¬ ∃ (j : Nat) (ck cj t : GoString), 1 ≤ j ∧ j < k ∧
          candidate initialMsg isSequential src k = some ck ∧
          candidate initialMsg isSequential src j = some cj ∧ ck ≠ cj ∧
          truncateHash (H ck) bits = some t ∧ truncateHash (H cj) bits = some t) := by
  refine ⟨?_, ?_, ?_, ?_⟩
  · intro k cur s seen hst
    constructor
    · obtain ⟨f, hf, _, hrun⟩ :=
        birthdayState_run H initialMsg isSequential bits src k cur s seen hst
      exact ⟨f, hf, hrun⟩
    · intro j c t hj1 hj2 hc ht
      obtain ⟨e, he, hmsg, hfull⟩ := birthdayState_stores_candidates H initialMsg isSequential
        bits src k cur s seen hst j c t hj1 hj2 hc ht
      exact ⟨e, he, hmsg, hfull, by rw [hfull]; exact ht⟩
  · intro n hret hn
    unfold BirthdayAttack at hret
    obtain ⟨r, st, _, hr, hst⟩ := birthdayLoop_reaches H initialMsg isSequential bits src
      searchFuel 0 initialMsg src (fun _ => none) n rfl hret hn
    obtain ⟨r1, hr1, _, hcol⟩ :=
      birthdayLoop_sound H initialMsg isSequential src bits searchFuel 0 initialMsg initialMsg
        src (fun _ => none) n rfl (SeenInv_init H initialMsg isSequential src bits) hret hn
    have hrr : r1 = r + 1 := by omega
    subst hrr
    refine ⟨r + 1, hr, ⟨st, by simpa using hst⟩, hcol, ?_⟩
    intro k hk hcolk
    exact birthdayState_no_collision H initialMsg isSequential bits src r st hst k (by omega) hcolk
  · intro r hr hcol hfirst
    have hr1 : 1 ≤ r := by
      obtain ⟨j, _, _, _, hj1, hj2, _⟩ := hcol
      omega
    exact BirthdayAttack_first_collision H src initialMsg isSequential bits r hr1 hr
      (defined_of_collision H initialMsg isSequential src bits r hcol) hcol hfirst
  · intro hret k hk hcol
    exact BirthdayAttack_gave_up_no_collision H src initialMsg isSequential bits hret k hk hcol

/-- C16 at a concrete input: the sequential search of "TEST" at 4 bits returns 6,
and 6 is the first attempt with a collision. -/
theorem BirthdayAttack_reports_first_collision_witness :
    BirthdayAttack calculateHash (fun _ => 0) [84, 69, 83, 84] true 4 = Outcome.returned 6 ∧
    ∃ r : Nat, (6 : Int) = (r : Int) ∧
      (∃ st, birthdayState calculateHash [84, 69, 83, 84] true 4 (fun _ => 0) (r - 1) =
        some st) ∧
      (∃ (j : Nat) (cn cj t : GoString), 1 ≤ j ∧ j < r ∧
        candidate [84, 69, 83, 84] true (fun _ => 0) r = some cn ∧
        candidate [84, 69, 83, 84] true (fun _ => 0) j = some cj ∧ cn ≠ cj ∧
        truncateHash (calculateHash cn) 4 = some t ∧
        truncateHash (calculateHash cj) 4 = some t) ∧
      (∀ k, k < r →
        ¬ ∃ (j : Nat) (ck cj t : GoString), 1 ≤ j ∧ j < k ∧
          candidate [84, 69, 83, 84] true (fun _ => 0) k = some ck ∧
          candidate [84, 69, 83, 84] true (fun _ => 0) j = some cj ∧ ck ≠ cj ∧
          truncateHash (calculateHash ck) 4 = some t ∧
          truncateHash (calculateHash cj) 4 = some t) :=
  ⟨birthday_TEST_4,
   (BirthdayAttack_reports_first_collision calculateHash (fun _ => 0) [84, 69, 83, 84] true
      4).2.1 6 birthday_TEST_4 (by decide)⟩

end Hashes
